import Mathlib

/-!
Shallow embedding of the integration-name extraction, normalization and
association-analysis pipeline of the app-listing-integrations-analysis
repository, together with proofs settling the frozen claims about it.

Strings are modelled as lists of Unicode code points (`List Nat`), which is
how Python treats `str`; the Python case functions `str.lower`, `str.upper`,
`str.capitalize` and `str.title` are modelled on the ASCII letters they act
on in this corpus.  Python `set` values are modelled by deduplicated lists;
where the iteration order of a set is observable, the model takes the
enumeration as an explicit parameter, since Python leaves that order
unspecified.
-/

set_option maxHeartbeats 2000000
set_option maxRecDepth 8000

abbrev Str := List Nat

/-- Code points of a string literal, the bridge from Lean literals into the
model. -/
def chars (s : String) : Str := s.data.map Char.toNat

/-- Python `str.lower` on one ASCII code point. -/
def lowChar (c : Nat) : Nat := if 65 ≤ c ∧ c ≤ 90 then c + 32 else c

/-- Python `str.upper` on one ASCII code point. -/
def upChar (c : Nat) : Nat := if 97 ≤ c ∧ c ≤ 122 then c - 32 else c

/-- Python `str.lower` on a string. -/
def lowerStr (s : Str) : Str := s.map lowChar

/-- Whitespace test matching Python `str.strip` / `str.split` defaults. -/
def isSpaceB (c : Nat) : Bool := decide (c = 32 ∨ (9 ≤ c ∧ c ≤ 13))

/-- Python `str.strip()` with no argument: drop whitespace at both ends. -/
def trimStr (s : Str) : Str :=
  ((s.dropWhile isSpaceB).reverse.dropWhile isSpaceB).reverse

/-- Python `str.strip(cs)`: drop characters of the set `cs` at both ends. -/
def stripSet (cs : List Nat) (s : Str) : Str :=
  ((s.dropWhile (cs.contains ·)).reverse.dropWhile (cs.contains ·)).reverse

/-- Index of the first occurrence of `needle` in `hay`, Python `str.find`
(with `none` for the -1 case). -/
def firstIdx (needle : Str) : Str → Option Nat
  | [] => if needle.isPrefixOf [] then some 0 else none
  | c :: rest =>
    if needle.isPrefixOf (c :: rest) then some 0
    else (firstIdx needle rest).map (· + 1)

/-- Python substring containment, the `in` operator on strings. -/
def containsSub (needle hay : Str) : Bool := (firstIdx needle hay).isSome

/-- Prepend a character to the first piece of a split result. -/
def consHead (c : Nat) : List Str → List Str
  | [] => [[c]]
  | h :: t => (c :: h) :: t

/-- Split at every character satisfying `p`, keeping empty pieces: models
Python str.split at a comma and re.split with a single-character class. -/
def splitAny (p : Nat → Bool) : Str → List Str
  | [] => [[]]
  | c :: rest => if p c then [] :: splitAny p rest else consHead c (splitAny p rest)

/-- Split at maximal runs of characters satisfying `p`, with a fuel argument
for structural recursion; every step consumes at least one character, so any
fuel at least the string length gives the fuel-free behaviour. -/
def splitRunsAux (p : Nat → Bool) : Nat → Str → List Str
  | _, [] => [[]]
  | 0, _ :: _ => [[]]
  | fuel + 1, c :: rest =>
    if p c then [] :: splitRunsAux p fuel (rest.dropWhile p)
    else consHead c (splitRunsAux p fuel rest)

/-- Split at maximal runs of characters satisfying `p`: models
the regex split at runs of sentence punctuation. -/
def splitRuns (p : Nat → Bool) (s : Str) : List Str := splitRunsAux p s.length s

/-- Python `str.split(sep)` with fuel for structural recursion; any fuel at
least the string length gives the fuel-free behaviour. -/
def splitOnSubAux (sep : Str) : Nat → Str → List Str
  | _, [] => [[]]
  | 0, s => [s]
  | fuel + 1, c :: rest =>
    if sep ≠ [] ∧ sep.isPrefixOf (c :: rest) then
      [] :: splitOnSubAux sep fuel ((c :: rest).drop sep.length)
    else consHead c (splitOnSubAux sep fuel rest)

/-- Python `str.split(sep)` for a nonempty separator string. -/
def splitOnSub (sep : Str) (s : Str) : List Str := splitOnSubAux sep s.length s

/-- Python `str.replace(pat, rep)` with fuel for structural recursion; any
fuel at least the string length gives the fuel-free behaviour. -/
def replaceAllAux (pat rep : Str) : Nat → Str → Str
  | _, [] => []
  | 0, s => s
  | fuel + 1, c :: rest =>
    if pat ≠ [] ∧ pat.isPrefixOf (c :: rest) then
      rep ++ replaceAllAux pat rep fuel ((c :: rest).drop pat.length)
    else c :: replaceAllAux pat rep fuel rest

/-- Python `str.replace(pat, rep)`: replace every non-overlapping occurrence
left to right (for a nonempty pattern). -/
def replaceAll (pat rep : Str) (s : Str) : Str := replaceAllAux pat rep s.length s

/-- Python `str.split()` with no argument: split on whitespace runs and drop
empty pieces. -/
def splitWs (s : Str) : List Str := (splitRuns isSpaceB s).filter (fun w => w ≠ [])

/-- Python join of words with a single space. -/
def joinSpace (ws : List Str) : Str := List.intercalate [32] ws

/-- Python `str.capitalize`: first character uppercased, the rest lowercased. -/
def capitalizeWord : Str → Str
  | [] => []
  | c :: rest => upChar c :: rest.map lowChar

/-- First-match association lookup, as a Python dict membership test plus
indexing (keys are unique in all tables of this development). -/
def lookupStr (k : Str) : List (Str × Str) → Option Str
  | [] => none
  | (a, v) :: t => if k = a then some v else lookupStr k t

/-- Boolean membership of a string in a list of strings. -/
def memB (x : Str) : List Str → Bool
  | [] => false
  | a :: t => if x = a then true else memB x t

/-- Lexicographic order on code-point strings, Python `<=` on `str`. -/
def strLe : Str → Str → Bool
  | [], _ => true
  | _ :: _, [] => false
  | a :: as, b :: bs => if a < b then true else if a = b then strLe as bs else false

/-- Strict lexicographic order on code-point strings, Python `<` on `str`. -/
def strLt : Str → Str → Bool
  | [], [] => false
  | [], _ :: _ => true
  | _ :: _, [] => false
  | a :: as, b :: bs => if a < b then true else if a = b then strLt as bs else false

/-- Insert into a sorted list, auxiliary to `sortStr`. -/
def insertSorted (x : Str) : List Str → List Str
  | [] => [x]
  | y :: ys => if strLe x y then x :: y :: ys else y :: insertSorted x ys

/-- Python `sorted` on a list of strings (insertion sort; the result is the
unique sorted permutation). -/
def sortStr : List Str → List Str
  | [] => []
  | x :: xs => insertSorted x (sortStr xs)

/-- Ordered pairs of distinct positions, `itertools.combinations(l, 2)`. -/
def pairsOf : List Str → List (Str × Str)
  | [] => []
  | x :: xs => xs.map (fun y => (x, y)) ++ pairsOf xs

/-!
Model of `extract_integrations` inside `load_integration_data`
(src/analyze_integrations.py): trigger keywords, the hard-coded platform
list, and the two scanning passes.  The Python function accumulates matches
in a `set` of platform names; membership is modelled exactly and the result
is enumerated in platform-list order.
-/

/-- The integration trigger keywords of `extract_integrations` in
`load_integration_data`. -/
def integrationKeywords : List Str :=
  [chars "integrates with", chars "works with", chars "compatible with",
   chars "connects to", chars "sync with", chars "syncs with",
   chars "integration with", chars "integrated with", chars "connect your",
   chars "connects your", chars "integration for", chars "plugin for"]

/-- The hard-coded platform list of `extract_integrations` in
`load_integration_data`. -/
def platformsList : List Str :=
  [chars "Shopify", chars "Facebook", chars "Instagram", chars "Google",
   chars "TikTok", chars "Twitter", chars "Pinterest", chars "WhatsApp",
   chars "Snapchat", chars "YouTube", chars "Amazon", chars "eBay",
   chars "Etsy", chars "Walmart", chars "Klaviyo", chars "Mailchimp",
   chars "Zapier", chars "Slack", chars "Zendesk", chars "Salesforce",
   chars "HubSpot", chars "QuickBooks", chars "Xero", chars "PayPal",
   chars "Stripe", chars "Square", chars "Klarna", chars "Affirm",
   chars "ShipStation", chars "ShipBob", chars "FedEx", chars "UPS",
   chars "USPS", chars "DHL"]

/-- Pass 1 of the extractor: a keyword occurs in the lowered text, and the
platform name occurs (case-insensitively) in the 100 characters of the
original text starting at the keyword position. -/
def keywordWindowHit (details dl p : Str) : Bool :=
  integrationKeywords.any (fun k =>
    match firstIdx k dl with
    | none => false
    | some pos => containsSub (lowerStr p) (lowerStr ((details.drop pos).take 100)))

/-- Pass 2 of the extractor: the platform occurs in the lowered text and some
keyword occurs within 50 characters either side of its first occurrence. -/
def contextWindowHit (dl p : Str) : Bool :=
  match firstIdx (lowerStr p) dl with
  | none => false
  | some idx =>
    integrationKeywords.any (fun k =>
      containsSub k ((dl.drop (idx - 50)).take (min dl.length (idx + 50) - (idx - 50))))

/-- Model of `extract_integrations` in `load_integration_data`: the set of platforms
added by either pass, enumerated in platform-list order. -/
def extractIntegrations (details : Str) : List Str :=
  let dl := lowerStr details
  platformsList.filter (fun p => keywordWindowHit details dl p || contextWindowHit dl p)

/-!
Model of `clean_integration_name` and the per-app cleaning pipeline of
`load_integration_data` (src/analyze_integrations.py).
-/

/-- The `name_mappings` dict of `standardize_integration_name`, in insertion
order. -/
def nameMappingsStd : List (Str × Str) :=
  [(chars "fb", chars "Facebook"), (chars "facebook", chars "Facebook"),
   (chars "ig", chars "Instagram"), (chars "insta", chars "Instagram"),
   (chars "instagram", chars "Instagram"),
   (chars "whatsapp", chars "WhatsApp"), (chars "wa", chars "WhatsApp"),
   (chars "tiktok", chars "TikTok"), (chars "youtube", chars "YouTube"),
   (chars "pinterest", chars "Pinterest"),
   (chars "paypal", chars "PayPal"), (chars "stripe", chars "Stripe"),
   (chars "klarna", chars "Klarna"),
   (chars "shopify checkout", chars "Shopify Checkout"),
   (chars "checkout", chars "Shopify Checkout"),
   (chars "google analytics", chars "Google Analytics"),
   (chars "ga", chars "Google Analytics"),
   (chars "google ads", chars "Google Ads"),
   (chars "klaviyo", chars "Klaviyo"), (chars "mailchimp", chars "Mailchimp"),
   (chars "activecampaign", chars "ActiveCampaign"),
   (chars "ups", chars "UPS"), (chars "usps", chars "USPS"),
   (chars "dhl", chars "DHL"), (chars "fedex", chars "FedEx"),
   (chars "amazon", chars "Amazon"), (chars "ebay", chars "eBay"),
   (chars "etsy", chars "Etsy"), (chars "walmart", chars "Walmart"),
   (chars "pos", chars "Shopify POS"), (chars "shopify pos", chars "Shopify POS"),
   (chars "flow", chars "Shopify Flow"), (chars "shopify flow", chars "Shopify Flow"),
   (chars "zendesk", chars "Zendesk"), (chars "gorgias", chars "Gorgias"),
   (chars "intercom", chars "Intercom"), (chars "zapier", chars "Zapier"),
   (chars "quickbooks", chars "QuickBooks"), (chars "xero", chars "Xero"),
   (chars "hubspot", chars "HubSpot"), (chars "salesforce", chars "Salesforce"),
   (chars "chatgpt", chars "ChatGPT"), (chars "openai", chars "OpenAI"),
   (chars "gpt", chars "ChatGPT"), (chars "dropbox", chars "Dropbox"),
   (chars "google drive", chars "Google Drive"),
   (chars "github", chars "GitHub"), (chars "gitlab", chars "GitLab"),
   (chars "bitbucket", chars "Bitbucket"),
   (chars "customer accounts", chars "Customer Accounts"),
   (chars "customer account", chars "Customer Accounts")]

/-- The lowercase-preserved connective words of the capitalization step. -/
def lowercaseWords : List Str :=
  [chars "and", chars "or", chars "in", chars "on", chars "at", chars "to",
   chars "for", chars "with", chars "by"]

/-- The word capitalization of `standardize_integration_name`: capitalize
each whitespace word except the connective stopwords. -/
def capitalizeWords (s : Str) : Str :=
  joinSpace ((splitWs s).map (fun w =>
    if memB w lowercaseWords then w else capitalizeWord w))

/-- Model of `standardize_integration_name`: lowercase and strip, exact alias lookup,
else run the partial substring-replacement loop over the whole alias table
and capitalize the remaining words. -/
def standardizeName (s : Str) : Str :=
  if s = [] then s
  else
    let m := trimStr (lowerStr s)
    match lookupStr m nameMappingsStd with
    | some v => v
    | none =>
      let r := nameMappingsStd.foldl
        (fun n pr => if containsSub pr.1 n then replaceAll pr.1 pr.2 n else n) m
      capitalizeWords r

/-- The per-cell work of `process_integration_list` before the final
`sorted(list(set(...)))`: split the cell on commas and pipes, standardize
every piece, keep truthy results. -/
def processedCell (cell : Str) : List Str :=
  if cell = [] then []
  else ((splitAny (fun c => c = 44 || c = 124) cell).map standardizeName).filter
    (fun t => t ≠ [])

/-!
Model of the association analyzer (src/analyze_integration_patterns.py).
A Relation Table is the `processed_integrations` column: one comma-joined
string per app row, with the empty string standing for a missing/empty cell
(both are skipped identically by every loop).
-/

/-- The per-app integration lists the analyzer loops over: skip empty cells,
split the rest on commas. -/
def activeLists (rows : List Str) : List (List Str) :=
  (rows.filter (fun r => r ≠ [])).map (splitAny (fun c => c = 44))

/-- Model of `analyze_integration_frequency`: occurrences of `x` in the concatenation
of all per-app lists. -/
def freqCount (rows : List Str) (x : Str) : Nat :=
  ((activeLists rows).flatten).count x

/-- Model of `get_integration_pairs` for one app: combinations of the sorted list. -/
def rowPairs (l : List Str) : List (Str × Str) :=
  pairsOf (sortStr l)

/-- Model of `analyze_integration_pairs`: total multiplicity of the pair key `p`
accumulated over all apps. -/
def pairCountTotal (rows : List Str) (p : Str × Str) : Nat :=
  (((activeLists rows).map (fun l => (rowPairs l).count p)).sum)

/-- The `all_integrations` set of the analyzer, enumerated in the
last-occurrence order of `List.dedup` (one admissible enumeration of a
Python set whose true iteration order is unspecified). -/
def allIntegrations (rows : List Str) : List Str :=
  ((activeLists rows).flatten).dedup

/-- The int1_total counter of the relationship loop for the ordered pair (x, y):
apps whose list contains x. -/
def int1Total (rows : List Str) (x : Str) : Nat :=
  (activeLists rows).countP (fun l => memB x l)

/-- The together counter of the relationship loop: apps whose list contains both. -/
def togetherCount (rows : List Str) (x y : Str) : Nat :=
  (activeLists rows).countP (fun l => memB x l && memB y l)

/-- The int2_total counter of the relationship loop: because of the elif, apps whose
list contains y but not x. -/
def int2TotalCode (rows : List Str) (x y : Str) : Nat :=
  (activeLists rows).countP (fun l => !memB x l && memB y l)

/-- Result of one iteration of the lift computation in
`analyze_integration_relationships`. -/
inductive LiftOutcome where
  | skipped : LiftOutcome
  | crash : LiftOutcome
  | value : ℚ → LiftOutcome
deriving DecidableEq

/-- One iteration of the lift computation for the ordered pair (x, y), as
the code runs it: `expected_together` divides by `total_apps` first (so an
empty table would raise), a zero `together` skips the pair, a zero factor in
`expected_together` raises ZeroDivisionError, and otherwise
`lift = together / expected_together`. -/
def liftOutcome (rows : List Str) (x y : Str) : LiftOutcome :=
  let total : Nat := rows.length
  let i1 := int1Total rows x
  let tog := togetherCount rows x y
  let i2 := int2TotalCode rows x y
  if total = 0 then .crash
  else if tog = 0 then .skipped
  else if i1 = 0 ∨ i2 = 0 then .crash
  else .value ((tog : ℚ) /
    (((i1 : ℚ) / (total : ℚ)) * ((i2 : ℚ) / (total : ℚ)) * (total : ℚ)))

/-- The `complementary` output of `analyze_integration_relationships`: pairs
of the given set enumeration whose computed lift exceeds 2. -/
def complementaryList (enum : List Str) (rows : List Str) : List (Str × Str × ℚ) :=
  (pairsOf enum).filterMap (fun pr =>
    match liftOutcome rows pr.1 pr.2 with
    | .value q => if 2 < q then some (pr.1, pr.2, q) else none
    | _ => none)

/-- The `exclusive` output of `analyze_integration_relationships`: pairs of
the given set enumeration whose computed lift is below 0.5. -/
def exclusiveList (enum : List Str) (rows : List Str) : List (Str × Str × ℚ) :=
  (pairsOf enum).filterMap (fun pr =>
    match liftOutcome rows pr.1 pr.2 with
    | .value q => if q < 1/2 then some (pr.1, pr.2, q) else none
    | _ => none)

/-- The total_count of the standalone loop: apps whose list contains x. -/
def totalCount (rows : List Str) (x : Str) : Nat :=
  (activeLists rows).countP (fun l => memB x l)

/-- The standalone_count of the standalone loop: apps whose list is exactly
[x]. -/
def standaloneCount (rows : List Str) (x : Str) : Nat :=
  (activeLists rows).countP (fun l => memB x l && l.length == 1)

/-- The standalone ratio, computed only under the `total_count > 0` guard. -/
def standaloneRatio (rows : List Str) (x : Str) : ℚ :=
  (standaloneCount rows x : ℚ) / (totalCount rows x : ℚ)

/-- The `primary` output: integrations with positive total count and
standalone ratio above 0.5. -/
def primaryList (rows : List Str) : List (Str × ℚ) :=
  (allIntegrations rows).filterMap (fun x =>
    if 0 < totalCount rows x then
      (if 1/2 < standaloneRatio rows x then some (x, standaloneRatio rows x)
       else none)
    else none)

/-- The `dependent` output: integrations with positive total count whose
standalone ratio fails the primary test and is below 0.1. -/
def dependentList (rows : List Str) : List (Str × ℚ) :=
  (allIntegrations rows).filterMap (fun x =>
    if 0 < totalCount rows x then
      (if 1/2 < standaloneRatio rows x then none
       else if standaloneRatio rows x < 1/10 then some (x, standaloneRatio rows x)
       else none)
    else none)

/-- The lift formula as the specification states it:
P(a,b) / (P(a) * P(b)) with P(x) = (apps containing x) / (total apps),
computed only for pairs with nonzero co-occurrence.  This definition follows
the words of the spec and exists to be compared with `liftOutcome`, which follows
the code. -/
def liftSpecFormula (rows : List Str) (x y : Str) : Option ℚ :=
  if togetherCount rows x y = 0 then none
  else some (((togetherCount rows x y : ℚ) / (rows.length : ℚ)) /
    (((totalCount rows x : ℚ) / (rows.length : ℚ)) *
     ((totalCount rows y : ℚ) / (rows.length : ℚ))))

/-!
Model of the description-scanning part of `parse_app_page`
(src/scrape_sitemap.py), the one extraction routine in the repository that
filters negation contexts.
-/

/-- The five trigger keywords of the sitemap description scan. -/
def siteKeywords : List Str :=
  [chars "integrates with", chars "works with", chars "compatible with",
   chars "connects to", chars "sync with"]

/-- Sentence-terminating punctuation of the regex split: period, bang, question mark. -/
def sentencePunc (c : Nat) : Bool := c = 46 || c = 33 || c = 63

/-- Fragment separators of the regex split: comma, semicolon, ampersand. -/
def fragSep (c : Nat) : Bool := c = 44 || c = 59 || c = 38

/-- The character set of the Python strip call: space, a, n, d, tab, newline. -/
def andStripChars : List Nat := [32, 97, 110, 100, 9, 10]

/-- The negation phrase isn(39)t compatible, built with the apostrophe as code 39. -/
def isntCompatible : Str := chars "isn" ++ (39 :: chars "t compatible")

/-- The negation phrase this app isn(39)t, built with the apostrophe as code 39. -/
def thisAppIsnt : Str := chars "this app isn" ++ [39, 116]

/-- The phrase "not compatible". -/
def notCompatible : Str := chars "not compatible"

/-- The raw candidates appended by the description scan of `parse_app_page`:
for each keyword present in the lowered description, for each sentence that
contains the keyword and neither negation phrase, the fragments after the
keyword, stripped, of length above 1. -/
def descCandidates (desc : Str) : List Str :=
  let dt := lowerStr desc
  siteKeywords.flatMap (fun k =>
    if containsSub k dt then
      (splitRuns sentencePunc dt).flatMap (fun sentence =>
        if containsSub k sentence && !containsSub isntCompatible sentence
            && !containsSub notCompatible sentence then
          (splitAny fragSep ((splitOnSub k sentence).getD 1 [])).filterMap (fun i =>
            let i2 := stripSet andStripChars i
            if 1 < i2.length then some i2 else none)
        else [])
    else [])

/-- The negation phrases of the final cleaning loop of `parse_app_page`. -/
def negationPhrases : List Str :=
  [isntCompatible, notCompatible, chars "only compatible with stores that",
   thisAppIsnt]

/-- The final cleaning of `parse_app_page`: deduplicate, strip punctuation,
drop short fragments, drop fragments containing a negation phrase or more
than five words. -/
def sitemapClean (desc : Str) : List Str :=
  let ints := (descCandidates desc).dedup
  let s1 := ints.map (stripSet (chars " ,.;"))
  let s2 := s1.filter (fun i => 1 < i.length)
  s2.filter (fun i =>
    !(negationPhrases.any (fun ph => containsSub ph (lowerStr i))) &&
    (splitWs i).length ≤ 5)

/-!
Concrete Relation Tables used by the closed theorems below.
-/

/-- The two-app scenario table of the specification: app1 with
Facebook and Stripe, app2 with Facebook only. -/
def twoAppRows : List Str := [chars "Facebook,Stripe", chars "Facebook"]

/-- A seven-app table on which the relationship classifier emits a pair in
non-lexicographic order: one app with A and B, three apps with A only, three
apps with C only. -/
def orderRows : List Str :=
  [chars "A,B", chars "A", chars "A", chars "A", chars "C", chars "C", chars "C"]

/-!
Definitions supporting the case-injectivity analysis of
`standardize_integration_name`: uppercase bookkeeping, whitespace
bookkeeping, the replacement-loop step, and the finite certificate data
extracted from the alias table.
-/

/-- ASCII uppercase test. -/
def isUpperB (c : Nat) : Bool := decide (65 ≤ c ∧ c ≤ 90)

/-- The string contains no ASCII uppercase character. -/
def upFree (s : Str) : Bool := s.all (fun c => !isUpperB c)

/-- The string contains no whitespace character. -/
def wsFree (s : Str) : Bool := s.all (fun c => !isSpaceB c)

/-- Number of non-whitespace characters of a string. -/
def nonWsCount (s : Str) : Nat := s.countP (fun c => !isSpaceB c)

/-- Maximal whitespace-free run at the start of a string. -/
def fwdRun (s : Str) : Str := s.takeWhile (fun c => !isSpaceB c)

/-- The remainder of a string after its first whitespace-free run and the
whitespace run following it. -/
def afterRun (s : Str) : Str :=
  (s.dropWhile (fun c => !isSpaceB c)).dropWhile isSpaceB

/-- Join a list of pieces with a separator between consecutive pieces, the
shape of a string in which every occurrence of a pattern has been marked. -/
def sepJoin (sep : Str) : List Str → Str
  | [] => []
  | [a] => a
  | a :: b :: t => a ++ sep ++ sepJoin sep (b :: t)

/-- One pass of the partial substring-replacement loop of
`standardize_integration_name`. -/
def stepStd (n : Str) (pr : Str × Str) : Str :=
  if containsSub pr.1 n then replaceAll pr.1 pr.2 n else n

/-- The whole substring-replacement loop, run over a mapping list. -/
def stdFold (m : Str) (prs : List (Str × Str)) : Str := prs.foldl stepStd m

/-- The canonical labels of the alias table. -/
def stdValues : List Str := nameMappingsStd.map Prod.snd

/-- The canonical labels that plain per-word capitalization of their
lowercase form does not reproduce: only these could collide with a
capitalization-branch output ignoring case. -/
def badValues : List Str :=
  stdValues.filter (fun v => capitalizeWords (lowerStr v) ≠ v)

/-- Certificate substrings: the suffix of a whitespace-free segment of a
canonical label starting at each uppercase character of the segment.  Every
uppercase character the replacement loop can ever produce is traceable to
one of these inside its own word. -/
def segCerts : List Str :=
  [chars "Facebook", chars "Instagram", chars "WhatsApp", chars "App",
   chars "TikTok", chars "Tok", chars "YouTube", chars "Tube",
   chars "Pinterest", chars "PayPal", chars "Pal", chars "Stripe",
   chars "Klarna", chars "Shopify", chars "Checkout", chars "Google",
   chars "Analytics", chars "Ads", chars "Klaviyo", chars "Mailchimp",
   chars "ActiveCampaign", chars "Campaign", chars "UPS", chars "USPS",
   chars "DHL", chars "FedEx", chars "Ex", chars "Amazon", chars "Bay",
   chars "Etsy", chars "Walmart", chars "POS", chars "Flow",
   chars "Zendesk", chars "Gorgias", chars "Intercom", chars "Zapier",
   chars "QuickBooks", chars "Books", chars "Xero", chars "HubSpot",
   chars "Spot", chars "Salesforce", chars "ChatGPT", chars "GPT",
   chars "OpenAI", chars "AI", chars "Dropbox", chars "Drive",
   chars "GitHub", chars "Hub", chars "GitLab", chars "Lab",
   chars "Bitbucket", chars "Customer", chars "Accounts"]

/-- Invariant of the replacement loop: every uppercase character is either
immediately preceded by another uppercase character or carries a
certificate substring inside the whitespace-free window that starts at
it. -/
def UpInv (n : Str) : Prop :=
  ∀ X c Y, n = X ++ c :: Y → isUpperB c = true →
    (∃ X0 d, X = X0 ++ [d] ∧ isUpperB d = true) ∨
    (∃ S ∈ segCerts, containsSub S (c :: fwdRun Y) = true)

/-- Boolean checker for `UpInv` on a concrete string, position by
position. -/
def upInvB (s : Str) : Bool :=
  (List.range s.length).all (fun i =>
    match s.drop i with
    | [] => true
    | c :: Y =>
      !(isUpperB c) ||
      (match (s.take i).getLast? with
       | some d => isUpperB d
       | none => false) ||
      segCerts.any (fun S => containsSub S (c :: fwdRun Y)))

/-- The word sequence of `n` coincides, ignoring case, with the word
sequence of `V`: the only way a capitalization-branch output can equal `V`
ignoring case. -/
def badMatch (n V : Str) : Prop :=
  (splitWs n).map lowerStr = (splitWs V).map lowerStr

/-- Checker for the shape of a two-word canonical label: a whitespace-free
first word, one single space, and a whitespace-free nonempty second
word. -/
def twoWordB (v : Str) : Bool :=
  match v.drop (fwdRun v).length with
  | 32 :: v2 => decide (fwdRun v ≠ []) && wsFree v2 && decide (v2 ≠ [])
  | _ => false

/-!
Lemmas about the string primitives.
-/

theorem lowChar_lowChar (c : Nat) : lowChar (lowChar c) = lowChar c := by
  unfold lowChar
  split_ifs <;> omega

theorem lookupStr_mem {k v : Str} :
    ∀ {t : List (Str × Str)}, lookupStr k t = some v → (k, v) ∈ t := by
  intro t
  induction t with
  | nil => intro h; cases h
  | cons p rest ih =>
    intro h
    cases p with
    | mk a w =>
      simp only [lookupStr] at h
      split at h
      · cases h
        subst a
        exact List.mem_cons_self _ _
      · exact List.mem_cons_of_mem _ (ih h)

/-!
Lemmas about substring containment.
-/

theorem containsSub_nil {n : Str} : containsSub n [] = n.isPrefixOf [] := by
  simp only [containsSub, firstIdx]
  by_cases hp : n.isPrefixOf ([] : Str) = true <;> simp [hp]

theorem containsSub_cons {n : Str} {c : Nat} {rest : Str} :
    containsSub n (c :: rest) = (n.isPrefixOf (c :: rest) || containsSub n rest) := by
  simp only [containsSub, firstIdx]
  by_cases hp : n.isPrefixOf (c :: rest) = true
  · simp [hp]
  · simp only [Bool.not_eq_true] at hp
    simp only [hp, if_false, Bool.false_or]
    cases firstIdx n rest <;> simp

theorem containsSub_exists {n h : Str} :
    containsSub n h = true ↔ ∃ i, n.isPrefixOf (h.drop i) = true := by
  induction h with
  | nil =>
    rw [containsSub_nil]
    constructor
    · intro hh; exact ⟨0, hh⟩
    · rintro ⟨i, hi⟩
      simpa using hi
  | cons c rest ih =>
    rw [containsSub_cons, Bool.or_eq_true]
    constructor
    · rintro (hp | hc)
      · exact ⟨0, by simpa using hp⟩
      · rcases ih.mp hc with ⟨i, hi⟩
        exact ⟨i + 1, by simpa using hi⟩
    · rintro ⟨i, hi⟩
      cases i with
      | zero =>
        left
        simpa using hi
      | succ j =>
        right
        exact ih.mpr ⟨j, by simpa using hi⟩

theorem containsSub_of_drop {n h : Str} {m : Nat}
    (hc : containsSub n (h.drop m) = true) : containsSub n h = true := by
  rcases containsSub_exists.mp hc with ⟨i, hi⟩
  rw [List.drop_drop] at hi
  exact containsSub_exists.mpr ⟨m + i, hi⟩

theorem containsSub_of_take {n h : Str} {m : Nat}
    (hc : containsSub n (h.take m) = true) : containsSub n h = true := by
  rcases containsSub_exists.mp hc with ⟨i, hi⟩
  rw [List.isPrefixOf_iff_prefix] at hi
  rw [containsSub_exists]
  refine ⟨i, ?_⟩
  rw [List.isPrefixOf_iff_prefix]
  calc n <+: (List.take m h).drop i := hi
    _ <+: h.drop i := by
        rw [List.drop_take]
        exact List.take_prefix _ _

theorem containsSub_of_slice {n h : Str} {a b : Nat}
    (hc : containsSub n ((h.drop a).take b) = true) : containsSub n h = true :=
  containsSub_of_drop (containsSub_of_take hc)

/-!
Lemmas about the lexicographic order and sorting.
-/

theorem strLe_total : ∀ x y : Str, strLe x y = true ∨ strLe y x = true := by
  intro x
  induction x with
  | nil => intro y; left; rfl
  | cons a as ih =>
    intro y
    cases y with
    | nil => right; rfl
    | cons b bs =>
      simp only [strLe]
      rcases Nat.lt_trichotomy a b with hab | hab | hab
      · left; simp [hab]
      · subst hab
        rcases ih bs with hle | hle
        · left; simp [hle]
        · right; simp [hle]
      · right
        simp [hab, Nat.ne_of_gt hab, Nat.lt_asymm hab]

theorem strLe_antisymm : ∀ x y : Str, strLe x y = true → strLe y x = true → x = y := by
  intro x
  induction x with
  | nil =>
    intro y _ hyx
    cases y with
    | nil => rfl
    | cons b bs => simp [strLe] at hyx
  | cons a as ih =>
    intro y hxy hyx
    cases y with
    | nil => simp [strLe] at hxy
    | cons b bs =>
      simp only [strLe] at hxy hyx
      rcases Nat.lt_trichotomy a b with hab | hab | hab
      · simp [Nat.ne_of_gt hab, Nat.lt_asymm hab] at hyx
      · subst hab
        simp only [Nat.lt_irrefl, if_false, if_pos rfl] at hxy hyx
        rw [ih bs hxy hyx]
      · simp [Nat.ne_of_gt hab, Nat.lt_asymm hab] at hxy

theorem strLe_trans : ∀ x y z : Str, strLe x y = true → strLe y z = true →
    strLe x z = true := by
  intro x
  induction x with
  | nil => intro y z _ _; rfl
  | cons a as ih =>
    intro y z hxy hyz
    cases y with
    | nil => simp [strLe] at hxy
    | cons b bs =>
      cases z with
      | nil => simp [strLe] at hyz
      | cons c cs =>
        simp only [strLe] at hxy hyz ⊢
        rcases Nat.lt_trichotomy a b with hab | hab | hab
        · rcases Nat.lt_trichotomy b c with hbc | hbc | hbc
          · simp [Nat.lt_trans hab hbc]
          · subst hbc; simp [hab]
          · simp [Nat.ne_of_gt hbc, Nat.lt_asymm hbc] at hyz
        · subst hab
          rcases Nat.lt_trichotomy a c with hac | hac | hac
          · simp [hac]
          · subst hac
            simp only [Nat.lt_irrefl, if_false, if_pos rfl] at hxy hyz ⊢
            exact ih bs cs hxy hyz
          · simp [Nat.ne_of_gt hac, Nat.lt_asymm hac] at hyz
        · simp [Nat.ne_of_gt hab, Nat.lt_asymm hab] at hxy

theorem strLt_iff : ∀ x y : Str, strLt x y = true ↔ (strLe x y = true ∧ x ≠ y) := by
  intro x
  induction x with
  | nil =>
    intro y
    cases y with
    | nil => simp [strLt, strLe]
    | cons b bs => simp [strLt, strLe]
  | cons a as ih =>
    intro y
    cases y with
    | nil => simp [strLt, strLe]
    | cons b bs =>
      simp only [strLt, strLe]
      rcases Nat.lt_trichotomy a b with hab | hab | hab
      · simp [hab, Nat.ne_of_lt hab]
      · subst hab
        simp only [Nat.lt_irrefl, if_false, eq_self_iff_true, if_true]
        rw [ih bs]
        constructor
        · rintro ⟨h1, h2⟩
          exact ⟨h1, by simpa using h2⟩
        · rintro ⟨h1, h2⟩
          exact ⟨h1, by simpa using h2⟩
      · simp [Nat.ne_of_gt hab, Nat.lt_asymm hab]

theorem strLt_irrefl (x : Str) : strLt x x = false := by
  by_contra h
  simp only [Bool.not_eq_false] at h
  exact ((strLt_iff x x).mp h).2 rfl

theorem strLe_of_strLt {x y : Str} (h : strLt x y = true) : strLe x y = true :=
  ((strLt_iff x y).mp h).1

theorem strLt_of_strLe_ne {x y : Str} (h1 : strLe x y = true) (h2 : x ≠ y) :
    strLt x y = true := (strLt_iff x y).mpr ⟨h1, h2⟩

instance : IsAntisymm Str (fun a b => strLe a b = true) :=
  ⟨fun a b => strLe_antisymm a b⟩

theorem insertSorted_perm (x : Str) (l : List Str) :
    (insertSorted x l).Perm (x :: l) := by
  induction l with
  | nil => exact List.Perm.refl _
  | cons y ys ih =>
    simp only [insertSorted]
    split
    · exact List.Perm.refl _
    · exact (ih.cons y).trans (List.Perm.swap x y ys)

theorem sortStr_perm (l : List Str) : (sortStr l).Perm l := by
  induction l with
  | nil => exact List.Perm.refl _
  | cons x xs ih =>
    exact (insertSorted_perm x (sortStr xs)).trans (ih.cons x)

theorem mem_sortStr {a : Str} {l : List Str} : a ∈ sortStr l ↔ a ∈ l :=
  (sortStr_perm l).mem_iff

theorem insertSorted_sorted (x : Str) {l : List Str}
    (hl : l.Pairwise (fun a b => strLe a b = true)) :
    (insertSorted x l).Pairwise (fun a b => strLe a b = true) := by
  induction l with
  | nil => simp [insertSorted]
  | cons y ys ih =>
    simp only [insertSorted]
    rcases List.pairwise_cons.mp hl with ⟨hy, hys⟩
    split
    · rename_i hxy
      refine List.pairwise_cons.mpr ⟨?_, hl⟩
      intro b hb
      rcases List.mem_cons.mp hb with rfl | hb
      · exact hxy
      · exact strLe_trans x y b hxy (hy b hb)
    · rename_i hxy
      have hyx : strLe y x = true := by
        rcases strLe_total x y with h | h
        · exact absurd h hxy
        · exact h
      refine List.pairwise_cons.mpr ⟨?_, ih hys⟩
      intro b hb
      have hb' := (insertSorted_perm x ys).mem_iff.mp hb
      rcases List.mem_cons.mp hb' with rfl | hb'
      · exact hyx
      · exact hy b hb'

theorem sortStr_sorted (l : List Str) :
    (sortStr l).Pairwise (fun a b => strLe a b = true) := by
  induction l with
  | nil => simp [sortStr]
  | cons x xs ih => exact insertSorted_sorted x ih

theorem sortStr_sorted_strict {l : List Str} (hl : l.Nodup) :
    (sortStr l).Pairwise (fun a b => strLt a b = true) := by
  have hn : (sortStr l).Nodup := ((sortStr_perm l).nodup_iff).mpr hl
  have hs := sortStr_sorted l
  have := hs.and hn
  exact this.imp (fun h => strLt_of_strLe_ne h.1 h.2)

theorem memB_iff {x : Str} : ∀ {l : List Str}, memB x l = true ↔ x ∈ l := by
  intro l
  induction l with
  | nil => simp [memB]
  | cons a t ih =>
    simp only [memB]
    split
    · subst x
      simp
    · rw [ih]
      rename_i hne
      simp [List.mem_cons, hne]

/-!
Lemmas about `pairsOf` on strictly sorted lists.
-/

theorem pairsOf_mem_strict :
    ∀ {l : List Str}, l.Pairwise (fun a b => strLt a b = true) →
    ∀ a b : Str, ((a, b) ∈ pairsOf l ↔ a ∈ l ∧ b ∈ l ∧ strLt a b = true) := by
  intro l
  induction l with
  | nil => intro _ a b; simp [pairsOf]
  | cons x xs ih =>
    intro hp a b
    rcases List.pairwise_cons.mp hp with ⟨hx, hxs⟩
    simp only [pairsOf, List.mem_append, List.mem_map]
    constructor
    · rintro (⟨y, hy, heq⟩ | hmem)
      · cases heq
        exact ⟨List.mem_cons_self _ _, List.mem_cons_of_mem _ hy, hx _ hy⟩
      · rcases (ih hxs a b).mp hmem with ⟨ha, hb, hlt⟩
        exact ⟨List.mem_cons_of_mem _ ha, List.mem_cons_of_mem _ hb, hlt⟩
    · rintro ⟨ha, hb, hlt⟩
      by_cases hax : a = x
      · subst hax
        left
        have hbx : b ∈ xs := by
          rcases List.mem_cons.mp hb with hbe | hbm
          · subst hbe
            rw [strLt_irrefl] at hlt
            cases hlt
          · exact hbm
        exact ⟨b, hbx, rfl⟩
      · right
        have ham : a ∈ xs := by
          rcases List.mem_cons.mp ha with h1 | h1
          · exact absurd h1 hax
          · exact h1
        have hbm : b ∈ xs := by
          rcases List.mem_cons.mp hb with h1 | h1
          · exfalso
            have h2 : strLt x a = true := hx a ham
            rw [h1] at hlt
            have h3 := strLe_antisymm x a (strLe_of_strLt h2) (strLe_of_strLt hlt)
            exact ((strLt_iff x a).mp h2).2 h3
          · exact h1
        exact (ih hxs a b).mpr ⟨ham, hbm, hlt⟩

theorem pairsOf_fst_strLt {l : List Str}
    (hp : l.Pairwise (fun a b => strLt a b = true)) :
    ∀ p ∈ pairsOf l, strLt p.1 p.2 = true := by
  intro p hmem
  cases p with
  | mk a b => exact ((pairsOf_mem_strict hp a b).mp hmem).2.2

theorem pairsOf_nodup :
    ∀ {l : List Str}, l.Pairwise (fun a b => strLt a b = true) →
    (pairsOf l).Nodup := by
  intro l
  induction l with
  | nil => intro _; simp [pairsOf]
  | cons x xs ih =>
    intro hp
    rcases List.pairwise_cons.mp hp with ⟨hx, hxs⟩
    have hnodup_xs : xs.Nodup :=
      (List.pairwise_cons.mp (hp.imp (fun {a b} h =>
        ((strLt_iff a b).mp h).2))).2
    simp only [pairsOf]
    refine List.Nodup.append ?_ (ih hxs) ?_
    · refine List.Nodup.map ?_ hnodup_xs
      intro y z h
      cases h
      rfl
    · intro p hp1 hp2
      obtain ⟨a, b⟩ := p
      rcases List.mem_map.mp hp1 with ⟨y, _, hpe⟩
      have hax : x = a := congrArg Prod.fst hpe
      have hxmem : a ∈ xs := ((pairsOf_mem_strict hxs a b).mp hp2).1
      have hlt : strLt x a = true := hx a hxmem
      rw [hax, strLt_irrefl] at hlt
      cases hlt

theorem sum_map_ite_eq_countP {α : Type} (p : α → Bool) :
    ∀ l : List α, (l.map (fun a => if p a = true then 1 else 0)).sum = l.countP p := by
  intro l
  induction l with
  | nil => simp
  | cons a t ih =>
    by_cases hpa : p a = true
    · simp [List.countP_cons, hpa, ih, Nat.add_comm]
    · simp only [Bool.not_eq_true] at hpa
      simp [List.countP_cons, hpa, ih]

/-!
Claim theorems.
-/

/-- Claim C1 (code bug): on the two-app table {Facebook, Stripe} and
{Facebook}, the lift computation of the code does not implement
P(a,b) / (P(a) * P(b)).  For the pair enumerated as (Stripe, Facebook) it
returns 2 where the spec formula gives 1, and for the same unordered pair
enumerated as (Facebook, Stripe) it raises ZeroDivisionError, because the
elif in the counting loop keeps every co-occurring app out of int2_total. -/
theorem C1_lift_code_vs_spec :
    liftOutcome twoAppRows (chars "Stripe") (chars "Facebook") = .value 2 ∧
    liftSpecFormula twoAppRows (chars "Stripe") (chars "Facebook") = some 1 ∧
    liftOutcome twoAppRows (chars "Facebook") (chars "Stripe") = .crash := by
  refine ⟨?_, ?_, ?_⟩
  · have h1 : int1Total twoAppRows (chars "Stripe") = 1 := by decide
    have h2 : togetherCount twoAppRows (chars "Stripe") (chars "Facebook") = 1 := by
      decide
    have h3 : int2TotalCode twoAppRows (chars "Stripe") (chars "Facebook") = 1 := by
      decide
    have h4 : twoAppRows.length = 2 := by decide
    simp [liftOutcome, h1, h2, h3, h4]
  · have h2 : togetherCount twoAppRows (chars "Stripe") (chars "Facebook") = 1 := by
      decide
    have h5 : totalCount twoAppRows (chars "Stripe") = 1 := by decide
    have h6 : totalCount twoAppRows (chars "Facebook") = 2 := by decide
    have h4 : twoAppRows.length = 2 := by decide
    simp [liftSpecFormula, h2, h5, h6, h4]
  · have h2 : togetherCount twoAppRows (chars "Facebook") (chars "Stripe") = 1 := by
      decide
    have h3 : int2TotalCode twoAppRows (chars "Facebook") (chars "Stripe") = 0 := by
      decide
    have h4 : twoAppRows.length = 2 := by decide
    simp [liftOutcome, h2, h3, h4]

/-- Claim C4 counterexample: on the scenario table the analyzer does not
always produce a lift of 2.0 for the pair Facebook/Stripe; when the set
enumeration presents the pair as (Facebook, Stripe), the lift computation
divides by zero (int2_total is 0 because every app with Stripe also has
Facebook), so the run raises instead of classifying. -/
theorem C4_boundary_crash_counterexample :
    liftOutcome twoAppRows (chars "Facebook") (chars "Stripe") = .crash := by
  have h2 : togetherCount twoAppRows (chars "Facebook") (chars "Stripe") = 1 := by
    decide
  have h3 : int2TotalCode twoAppRows (chars "Facebook") (chars "Stripe") = 0 := by
    decide
  have h4 : twoAppRows.length = 2 := by decide
  simp [liftOutcome, h2, h3, h4]

/-- Claim C4 (amended): on the scenario table the frequency counts are
Facebook 2 and Stripe 1 and the pair count is 1; with the pair enumerated as
(Stripe, Facebook) the code computes lift exactly 2, which the strict
`lift > 2` test classifies as neither complementary nor exclusive; with the
opposite enumeration (Facebook, Stripe) the lift computation divides by
zero. -/
theorem C4_scenario_eval :
    freqCount twoAppRows (chars "Facebook") = 2 ∧
    freqCount twoAppRows (chars "Stripe") = 1 ∧
    pairCountTotal twoAppRows (chars "Facebook", chars "Stripe") = 1 ∧
    liftOutcome twoAppRows (chars "Stripe") (chars "Facebook") = .value 2 ∧
    complementaryList (allIntegrations twoAppRows) twoAppRows = [] ∧
    exclusiveList (allIntegrations twoAppRows) twoAppRows = [] ∧
    liftOutcome twoAppRows (chars "Facebook") (chars "Stripe") = .crash := by
  have h1 : int1Total twoAppRows (chars "Stripe") = 1 := by decide
  have h2 : togetherCount twoAppRows (chars "Stripe") (chars "Facebook") = 1 := by
    decide
  have h3 : int2TotalCode twoAppRows (chars "Stripe") (chars "Facebook") = 1 := by
    decide
  have h4 : twoAppRows.length = 2 := by decide
  have hv : liftOutcome twoAppRows (chars "Stripe") (chars "Facebook") = .value 2 := by
    simp [liftOutcome, h1, h2, h3, h4]
  have h2' : togetherCount twoAppRows (chars "Facebook") (chars "Stripe") = 1 := by
    decide
  have h3' : int2TotalCode twoAppRows (chars "Facebook") (chars "Stripe") = 0 := by
    decide
  have hc : liftOutcome twoAppRows (chars "Facebook") (chars "Stripe") = .crash := by
    simp [liftOutcome, h2', h3', h4]
  have hall : allIntegrations twoAppRows = [chars "Stripe", chars "Facebook"] := by
    decide
  refine ⟨by decide, by decide, by decide, hv, ?_, ?_, hc⟩
  · rw [complementaryList, hall]
    simp [pairsOf, hv]
  · rw [exclusiveList, hall]
    simp [pairsOf, hv]
    norm_num

theorem count_eq_one_of_nodup_mem {α : Type} [BEq α] [LawfulBEq α] {l : List α}
    {a : α} (hn : l.Nodup) (hm : a ∈ l) : l.count a = 1 := by
  induction l with
  | nil => cases hm
  | cons x t ih =>
    rcases List.nodup_cons.mp hn with ⟨hx, ht⟩
    rcases List.mem_cons.mp hm with rfl | hm'
    · rw [List.count_cons_self, List.count_eq_zero.mpr hx]
    · have hne : a ≠ x := fun he => hx (he ▸ hm')
      have hbeq : (x == a) = false := beq_eq_false_iff_ne.mpr (fun he => hne he.symm)
      rw [List.count_cons, ih ht hm', hbeq]
      simp

/-- Claim C8 counterexample: on a seven-app table whose integration set
enumerates as B, A, C, the relationship classifier emits the complementary
pair statistic keyed (B, A) with lift 7/3, and B is not lexicographically
below A, so lift-bearing pair classifications are not keyed by a < b. -/
theorem C8_classification_order_counterexample :
    allIntegrations orderRows = [chars "B", chars "A", chars "C"] ∧
    complementaryList (allIntegrations orderRows) orderRows =
      [(chars "B", chars "A", 7/3)] ∧
    strLt (chars "B") (chars "A") = false ∧
    chars "B" ≠ chars "A" := by
  have hall : allIntegrations orderRows = [chars "B", chars "A", chars "C"] := by
    decide
  have h1 : int1Total orderRows (chars "B") = 1 := by decide
  have h2 : togetherCount orderRows (chars "B") (chars "A") = 1 := by decide
  have h3 : int2TotalCode orderRows (chars "B") (chars "A") = 3 := by decide
  have h4 : orderRows.length = 7 := by decide
  have hBA : liftOutcome orderRows (chars "B") (chars "A") = .value (7/3) := by
    simp [liftOutcome, h1, h2, h3, h4]
    norm_num
  have hBC : liftOutcome orderRows (chars "B") (chars "C") = .skipped := by decide
  have hAC : liftOutcome orderRows (chars "A") (chars "C") = .skipped := by decide
  refine ⟨hall, ?_, by decide, by decide⟩
  rw [hall]
  simp only [complementaryList, pairsOf, List.map_cons, List.map_nil,
    List.cons_append, List.nil_append, List.filterMap_cons, List.filterMap_nil,
    hBA, hBC, hAC]
  norm_num

/-- Claim C8 (amended): the co-occurrence pair statistics of
`analyze_integration_pairs` are keyed by lexicographically sorted pairs:
for duplicate-free per-app lists, every emitted pair satisfies a < b, the
per-app pair list has no duplicates and contains (a, b) exactly when the app
has both a and b with a < b, and the aggregated count of a pair equals the
number of apps containing both.  (The lift-bearing classifications of
`analyze_integration_relationships` instead follow the unspecified set
enumeration order; see the counterexample.) -/
theorem C8_pair_stats_sound (rows : List Str)
    (h : ∀ l ∈ activeLists rows, l.Nodup) :
    (∀ l ∈ activeLists rows,
      (rowPairs l).Nodup ∧
      (∀ p ∈ rowPairs l, strLt p.1 p.2 = true) ∧
      (∀ a b : Str, ((a, b) ∈ rowPairs l ↔ a ∈ l ∧ b ∈ l ∧ strLt a b = true))) ∧
    (∀ a b : Str, strLt a b = true →
      pairCountTotal rows (a, b) =
        (activeLists rows).countP (fun l => memB a l && memB b l)) := by
  constructor
  · intro l hl
    have hnd := h l hl
    have hstrict := sortStr_sorted_strict hnd
    refine ⟨pairsOf_nodup hstrict, pairsOf_fst_strLt hstrict, ?_⟩
    intro a b
    rw [rowPairs, pairsOf_mem_strict hstrict a b, mem_sortStr, mem_sortStr]
  · intro a b hab
    unfold pairCountTotal
    rw [List.map_congr_left (g := fun l =>
      if (memB a l && memB b l) = true then 1 else 0) ?_]
    · exact sum_map_ite_eq_countP _ _
    · intro l hl
      have hnd := h l hl
      have hstrict := sortStr_sorted_strict hnd
      show List.count (a, b) (rowPairs l) =
        if (memB a l && memB b l) = true then 1 else 0
      by_cases hm : (memB a l && memB b l) = true
      · have hparts : memB a l = true ∧ memB b l = true := by simpa using hm
        have hmem : (a, b) ∈ rowPairs l := by
          rw [rowPairs, pairsOf_mem_strict hstrict a b, mem_sortStr, mem_sortStr]
          exact ⟨memB_iff.mp hparts.1, memB_iff.mp hparts.2, hab⟩
        rw [if_pos hm]
        exact count_eq_one_of_nodup_mem (pairsOf_nodup hstrict) hmem
      · have hnmem : (a, b) ∉ rowPairs l := by
          intro hmem
          rw [rowPairs, pairsOf_mem_strict hstrict a b, mem_sortStr, mem_sortStr]
            at hmem
          apply hm
          have h1 : memB a l = true := memB_iff.mpr hmem.1
          have h2 : memB b l = true := memB_iff.mpr hmem.2.1
          simp [h1, h2]
        rw [if_neg hm]
        exact List.count_eq_zero.mpr hnmem

/-- Claim C8 witness: the amended statement evaluated on the one-app table
with Facebook and Stripe. -/
theorem C8_pair_stats_witness :
    (rowPairs [chars "Facebook", chars "Stripe"]).Nodup ∧
    pairCountTotal [chars "Facebook,Stripe"] (chars "Facebook", chars "Stripe") =
      (activeLists [chars "Facebook,Stripe"]).countP
        (fun l => memB (chars "Facebook") l && memB (chars "Stripe") l) := by
  have h := C8_pair_stats_sound [chars "Facebook,Stripe"] (by decide)
  refine ⟨?_, h.2 (chars "Facebook") (chars "Stripe") (by decide)⟩
  exact (h.1 [chars "Facebook", chars "Stripe"] (by decide)).1

theorem stdTableValuesFixed :
    nameMappingsStd.all (fun pr => decide (pr.2 ≠ [] ∧
      lookupStr (trimStr (lowerStr pr.2)) nameMappingsStd = some pr.2)) = true := by
  decide

theorem standardizeName_direct {x v : Str} (hx : x ≠ [])
    (hv : lookupStr (trimStr (lowerStr x)) nameMappingsStd = some v) :
    standardizeName x = v := by
  unfold standardizeName
  rw [if_neg hx]
  simp only [hv]

/-- Claim C3 counterexample: the standardizer is not idempotent.  For the
input "positive", the substring replacement turns "pos" into "Shopify POS",
capitalization gives "Shopify Positive", and a second application replaces
"pos" inside "positive" again, giving "Shopify Shopify Positive". -/
theorem C3_idempotence_counterexample :
    standardizeName (chars "positive") = chars "Shopify Positive" ∧
    standardizeName (standardizeName (chars "positive")) =
      chars "Shopify Shopify Positive" ∧
    standardizeName (standardizeName (chars "positive")) ≠
      standardizeName (chars "positive") := by decide

/-- Claim C3 (amended): the normalizer is idempotent on every input whose
trimmed lowercase form is an alias-table key — each canonical value is a
fixed point — but not on all raw strings, because the partial substring
replacement can fire again on the output of the normalizer. -/
theorem C3_idempotent_on_alias_hits (x : Str)
    (h : (lookupStr (trimStr (lowerStr x)) nameMappingsStd).isSome = true) :
    standardizeName (standardizeName x) = standardizeName x := by
  by_cases hx : x = []
  · subst hx
    rfl
  · obtain ⟨v, hv⟩ := Option.isSome_iff_exists.mp h
    have hs := standardizeName_direct hx hv
    have hmem := lookupStr_mem hv
    have hprop := of_decide_eq_true (List.all_eq_true.mp stdTableValuesFixed _ hmem)
    rw [hs]
    exact standardizeName_direct hprop.1 hprop.2

/-- Claim C3 witness: the amended statement at the alias "FB". -/
theorem C3_idempotent_witness :
    standardizeName (standardizeName (chars "FB")) = standardizeName (chars "FB") :=
  C3_idempotent_on_alias_hits (chars "FB") (by decide)

/-- Claim C10 counterexample: the hard-coded platform list of the extractor
has 34 entries, not 36. -/
theorem C10_platform_count_counterexample :
    platformsList.length = 34 ∧ ¬ platformsList.length = 36 := by decide

/-- Claim C10 (amended): every candidate the description extractor of
`load_integration_data` returns is drawn from its fixed 34-entry platform
list; it can never emit a name outside that closed list. -/
theorem C10_closed_vocabulary (details x : Str)
    (h : x ∈ extractIntegrations details) : x ∈ platformsList := by
  simp only [extractIntegrations] at h
  exact List.mem_of_mem_filter h

/-- Claim C10 witness: the amended statement at a concrete description from
which Facebook is extracted. -/
theorem C10_closed_vocabulary_witness : chars "Facebook" ∈ platformsList :=
  C10_closed_vocabulary (chars "Integrates with Facebook") (chars "Facebook")
    (by decide)

/-- Claim C6: if no trigger keyword occurs in the lowered text, the
extractor of `load_integration_data` returns the empty list: pass one finds
no keyword and pass two finds no keyword in any context window.  The
function is total, so the empty result is a normal value, not an error. -/
theorem C6_no_trigger_empty (details : Str)
    (h : ∀ k ∈ integrationKeywords, containsSub k (lowerStr details) = false) :
    extractIntegrations details = [] := by
  simp only [extractIntegrations]
  rw [List.filter_eq_nil_iff]
  intro p _
  intro hor
  rw [Bool.or_eq_true] at hor
  rcases hor with hkw | hctx
  · simp only [keywordWindowHit] at hkw
    rcases List.any_eq_true.mp hkw with ⟨k, hk, hcond⟩
    have hnone : firstIdx k (lowerStr details) = none := by
      have hc := h k hk
      rw [containsSub] at hc
      exact Option.not_isSome_iff_eq_none.mp (by simp [hc])
    rw [hnone] at hcond
    cases hcond
  · simp only [contextWindowHit] at hctx
    cases hidx : firstIdx (lowerStr p) (lowerStr details) with
    | none =>
      rw [hidx] at hctx
      cases hctx
    | some idx =>
      rw [hidx] at hctx
      rcases List.any_eq_true.mp hctx with ⟨k, hk, hc⟩
      have hin : containsSub k (lowerStr details) = true := containsSub_of_slice hc
      rw [h k hk] at hin
      cases hin

/-- Claim C6 witness: a description with no trigger phrase extracts to the
empty list. -/
theorem C6_no_trigger_witness :
    extractIntegrations (chars "A great app for merchants.") = [] :=
  C6_no_trigger_empty (chars "A great app for merchants.") (by decide)

/-- Claim C5: the standalone ratio lies in [0,1] whenever its denominator is
positive (standalone apps are a subset of the apps containing x), and an
integration whose denominator is zero never appears in the primary or
dependent classification output, because both are guarded by the
`total_count > 0` check. -/
theorem C5_standalone_ratio_sound (rows : List Str) (x : Str) :
    (0 < totalCount rows x →
      0 ≤ standaloneRatio rows x ∧ standaloneRatio rows x ≤ 1) ∧
    (totalCount rows x = 0 →
      (∀ q : ℚ, (x, q) ∉ primaryList rows) ∧
      (∀ q : ℚ, (x, q) ∉ dependentList rows)) := by
  constructor
  · intro hpos
    have hle : standaloneCount rows x ≤ totalCount rows x := by
      apply List.countP_mono_left
      intro l _ hl
      have h2 : memB x l = true ∧ (l.length == 1) = true := by simpa using hl
      exact h2.1
    constructor
    · exact div_nonneg (Nat.cast_nonneg _) (Nat.cast_nonneg _)
    · unfold standaloneRatio
      rw [div_le_one (by exact_mod_cast hpos)]
      exact_mod_cast hle
  · intro h0
    constructor
    · intro q hq
      simp only [primaryList] at hq
      rcases List.mem_filterMap.mp hq with ⟨a, _, hfa⟩
      by_cases hta : 0 < totalCount rows a
      · rw [if_pos hta] at hfa
        by_cases hrr : 1/2 < standaloneRatio rows a
        · rw [if_pos hrr] at hfa
          have hpair := Option.some.inj hfa
          have ha : a = x := congrArg Prod.fst hpair
          rw [ha] at hta
          omega
        · rw [if_neg hrr] at hfa
          cases hfa
      · rw [if_neg hta] at hfa
        cases hfa
    · intro q hq
      simp only [dependentList] at hq
      rcases List.mem_filterMap.mp hq with ⟨a, _, hfa⟩
      by_cases hta : 0 < totalCount rows a
      · rw [if_pos hta] at hfa
        by_cases hrr : 1/2 < standaloneRatio rows a
        · rw [if_pos hrr] at hfa
          cases hfa
        · rw [if_neg hrr] at hfa
          by_cases hdd : standaloneRatio rows a < 1/10
          · rw [if_pos hdd] at hfa
            have hpair := Option.some.inj hfa
            have ha : a = x := congrArg Prod.fst hpair
            rw [ha] at hta
            omega
          · rw [if_neg hdd] at hfa
            cases hfa
      · rw [if_neg hta] at hfa
        cases hfa

/-- Claim C5 witness: the bounds at a one-app table containing Facebook, and
the exclusion of the absent integration Stripe from both outputs. -/
theorem C5_standalone_ratio_witness :
    (0 ≤ standaloneRatio [chars "Facebook"] (chars "Facebook") ∧
      standaloneRatio [chars "Facebook"] (chars "Facebook") ≤ 1) ∧
    (chars "Stripe", (5 : ℚ)) ∉ primaryList [chars "Facebook"] ∧
    (chars "Stripe", (5 : ℚ)) ∉ dependentList [chars "Facebook"] := by
  refine ⟨(C5_standalone_ratio_sound [chars "Facebook"] (chars "Facebook")).1
    (by decide), ?_, ?_⟩
  · exact ((C5_standalone_ratio_sound [chars "Facebook"] (chars "Stripe")).2
      (by decide)).1 5
  · exact ((C5_standalone_ratio_sound [chars "Facebook"] (chars "Stripe")).2
      (by decide)).2 5

/-- Claim C9: the normalization pipeline is deterministic.  The per-cell
standardization of `process_integration_list` ends with
`sorted(list(set(cleaned)))`; whatever enumerations the unordered set
produces in two runs over the identical cell, the sorted canonical lists
are identical, so rebuilding the Relation Table from identical input rows
yields identical canonical integration sets. -/
theorem C9_table_determinism (cell : Str) (e1 e2 : List Str)
    (h1 : e1.Perm (processedCell cell).dedup)
    (h2 : e2.Perm (processedCell cell).dedup) :
    sortStr e1 = sortStr e2 := by
  have hp : (sortStr e1).Perm (sortStr e2) :=
    ((sortStr_perm e1).trans (h1.trans h2.symm)).trans (sortStr_perm e2).symm
  exact List.eq_of_perm_of_sorted hp (sortStr_sorted e1) (sortStr_sorted e2)

/-- Claim C9 witness: two set enumerations of the cleaned cell
"fb|klaviyo,fb" sort to the same canonical list. -/
theorem C9_table_determinism_witness :
    sortStr [chars "Klaviyo", chars "Facebook"] =
      sortStr [chars "Facebook", chars "Klaviyo"] :=
  C9_table_determinism (chars "fb|klaviyo,fb")
    [chars "Klaviyo", chars "Facebook"] [chars "Facebook", chars "Klaviyo"]
    (by decide) (by decide)

theorem flatMap_nil_of_forall {α β : Type} {l : List α} {f : α → List β}
    (h : ∀ a ∈ l, f a = []) : l.flatMap f = [] := by
  induction l with
  | nil => rfl
  | cons a t ih =>
    rw [List.flatMap_cons, h a (List.mem_cons_self a t),
      ih (fun b hb => h b (List.mem_cons_of_mem a hb))]
    rfl

/-- Claim C2 counterexample: the extractor of `load_integration_data` cited
by the claim performs no negation filtering.  On the text "It is not
compatible with Facebook", where the only trigger occurrence is negated, it
still returns Facebook among the raw candidates. -/
theorem C2_negation_counterexample :
    extractIntegrations (chars "It is not compatible with Facebook") =
      [chars "Facebook"] := by decide

/-- Claim C2 (amended): the only negation filtering in the repository is in
the description scan of the sitemap scraper.  If every sentence of the lowered
description that contains a trigger keyword also contains a negated-compatibility
phrase, that scan appends no candidates and the cleaned result
is empty. -/
theorem C2_sitemap_negation_drops (desc : Str)
    (h : ∀ s ∈ splitRuns sentencePunc (lowerStr desc),
      (∃ k ∈ siteKeywords, containsSub k s = true) →
      (containsSub isntCompatible s = true ∨ containsSub notCompatible s = true)) :
    descCandidates desc = [] ∧ sitemapClean desc = [] := by
  have hd : descCandidates desc = [] := by
    simp only [descCandidates]
    apply flatMap_nil_of_forall
    intro k hk
    by_cases hkdt : containsSub k (lowerStr desc) = true
    · rw [if_pos hkdt]
      apply flatMap_nil_of_forall
      intro s hs
      have hcond : (containsSub k s && !containsSub isntCompatible s
          && !containsSub notCompatible s) = false := by
        by_cases hks : containsSub k s = true
        · rcases h s hs ⟨k, hk, hks⟩ with hneg | hneg
          · simp [hneg]
          · simp [hneg]
        · simp only [Bool.not_eq_true] at hks
          simp [hks]
      rw [if_neg (by simp [hcond])]
    · rw [if_neg (by simp [hkdt])]
  refine ⟨hd, ?_⟩
  simp only [sitemapClean, hd]
  rfl

/-- Claim C2 witness: the amended statement at a description whose single
trigger sentence is negated. -/
theorem C2_sitemap_negation_witness :
    descCandidates (chars "This app is not compatible with Shopify POS.") = [] ∧
    sitemapClean (chars "This app is not compatible with Shopify POS.") = [] :=
  C2_sitemap_negation_drops (chars "This app is not compatible with Shopify POS.")
    (by decide)

theorem isSpaceB_lowChar (c : Nat) : isSpaceB (lowChar c) = isSpaceB c := by
  unfold lowChar isSpaceB
  split_ifs with h
  · have h1 : ¬(c + 32 = 32 ∨ (9 ≤ c + 32 ∧ c + 32 ≤ 13)) := by omega
    have h2 : ¬(c = 32 ∨ (9 ≤ c ∧ c ≤ 13)) := by omega
    rw [decide_eq_false h1, decide_eq_false h2]
  · rfl

theorem isSpaceB_upChar (c : Nat) : isSpaceB (upChar c) = isSpaceB c := by
  unfold upChar isSpaceB
  split_ifs with h
  · have h1 : ¬(c - 32 = 32 ∨ (9 ≤ c - 32 ∧ c - 32 ≤ 13)) := by omega
    have h2 : ¬(c = 32 ∨ (9 ≤ c ∧ c ≤ 13)) := by omega
    rw [decide_eq_false h1, decide_eq_false h2]
  · rfl

theorem not_upper_of_ws {c : Nat} (h : isSpaceB c = true) : isUpperB c = false := by
  unfold isSpaceB at h
  unfold isUpperB
  have := of_decide_eq_true h
  exact decide_eq_false (by omega)

theorem not_ws_of_upper {c : Nat} (h : isUpperB c = true) : isSpaceB c = false := by
  unfold isUpperB at h
  unfold isSpaceB
  have := of_decide_eq_true h
  exact decide_eq_false (by omega)

theorem lowChar_of_not_upper {c : Nat} (h : isUpperB c = false) : lowChar c = c := by
  unfold isUpperB at h
  unfold lowChar
  rw [if_neg]
  intro hc
  rw [decide_eq_true hc] at h
  cases h

theorem not_upper_of_lowChar_fixed {c : Nat} (h : lowChar c = c) :
    isUpperB c = false := by
  unfold lowChar at h
  unfold isUpperB
  by_cases hc : 65 ≤ c ∧ c ≤ 90
  · rw [if_pos hc] at h
    omega
  · exact decide_eq_false hc

theorem lowChar_upChar (c : Nat) : lowChar (upChar c) = lowChar c := by
  unfold lowChar upChar
  split_ifs <;> omega

theorem upChar_lowChar (c : Nat) : upChar (lowChar c) = upChar c := by
  unfold lowChar upChar
  split_ifs <;> omega

theorem lowerStr_idem (s : Str) : lowerStr (lowerStr s) = lowerStr s := by
  unfold lowerStr
  rw [List.map_map]
  exact List.map_congr_left (fun c _ => lowChar_lowChar c)

theorem lowerStr_length (s : Str) : (lowerStr s).length = s.length :=
  List.length_map s lowChar

theorem lowerStr_append (a b : Str) :
    lowerStr (a ++ b) = lowerStr a ++ lowerStr b := List.map_append lowChar a b

theorem lowerStr_eq_nil {s : Str} (h : lowerStr s = []) : s = [] := by
  cases s with
  | nil => rfl
  | cons c t => cases h

theorem lowerStr_of_upFree {s : Str} (h : upFree s = true) : lowerStr s = s := by
  unfold upFree at h
  rw [List.all_eq_true] at h
  unfold lowerStr
  have : ∀ c ∈ s, lowChar c = c := by
    intro c hc
    have hb := h c hc
    rw [Bool.not_eq_true'] at hb
    exact lowChar_of_not_upper hb
  calc s.map lowChar = s.map id := List.map_congr_left this
    _ = s := List.map_id s

theorem upFree_of_lowChar_fixed {s : Str} (h : ∀ c ∈ s, lowChar c = c) :
    upFree s = true := by
  unfold upFree
  rw [List.all_eq_true]
  intro c hc
  rw [Bool.not_eq_true']
  exact not_upper_of_lowChar_fixed (h c hc)

theorem upFree_append {a b : Str} :
    upFree (a ++ b) = (upFree a && upFree b) := List.all_append

theorem wsFree_append {a b : Str} :
    wsFree (a ++ b) = (wsFree a && wsFree b) := List.all_append

theorem upFree_of_wsOnly {s : Str} (h : ∀ c ∈ s, isSpaceB c = true) :
    upFree s = true := by
  unfold upFree
  rw [List.all_eq_true]
  intro c hc
  rw [Bool.not_eq_true']
  exact not_upper_of_ws (h c hc)

theorem first_upper_split {w : Str} (h : upFree w = false) :
    ∃ w1 c w2, w = w1 ++ c :: w2 ∧ isUpperB c = true ∧ upFree w1 = true := by
  induction w with
  | nil => cases h
  | cons c t ih =>
    by_cases hc : isUpperB c = true
    · exact ⟨[], c, t, rfl, hc, rfl⟩
    · rw [Bool.not_eq_true] at hc
      have ht : upFree t = false := by
        by_contra hne
        rw [Bool.not_eq_false] at hne
        have : upFree (c :: t) = true := by
          unfold upFree at hne ⊢
          rw [List.all_cons, hne, hc]
          rfl
        rw [this] at h
        cases h
      rcases ih ht with ⟨w1, d, w2, hw, hd, hw1⟩
      refine ⟨c :: w1, d, w2, by rw [hw]; rfl, hd, ?_⟩
      unfold upFree at hw1 ⊢
      rw [List.all_cons, hw1, hc]
      rfl

/-!
Substring containment in explicit-parts form, with monotonicity.
-/

theorem containsSub_parts {n h : Str} :
    containsSub n h = true ↔ ∃ a b, h = a ++ n ++ b := by
  rw [containsSub_exists]
  constructor
  · rintro ⟨i, hi⟩
    rw [List.isPrefixOf_iff_prefix] at hi
    rcases hi with ⟨b, hb⟩
    refine ⟨h.take i, b, ?_⟩
    rw [List.append_assoc, hb, List.take_append_drop]
  · rintro ⟨a, b, rfl⟩
    refine ⟨a.length, ?_⟩
    rw [List.isPrefixOf_iff_prefix, List.append_assoc, List.drop_left]
    exact ⟨b, rfl⟩

theorem containsSub_self (n : Str) : containsSub n n = true :=
  containsSub_parts.mpr ⟨[], [], by simp⟩

theorem containsSub_mono_left {n h : Str} (u : Str)
    (hc : containsSub n h = true) : containsSub n (u ++ h) = true := by
  rcases containsSub_parts.mp hc with ⟨a, b, rfl⟩
  exact containsSub_parts.mpr ⟨u ++ a, b, by simp⟩

theorem containsSub_mono_right {n h : Str} (u : Str)
    (hc : containsSub n h = true) : containsSub n (h ++ u) = true := by
  rcases containsSub_parts.mp hc with ⟨a, b, rfl⟩
  exact containsSub_parts.mpr ⟨a, b ++ u, by simp⟩

theorem containsSub_trans {a b c : Str} (h1 : containsSub a b = true)
    (h2 : containsSub b c = true) : containsSub a c = true := by
  rcases containsSub_parts.mp h1 with ⟨x, y, rfl⟩
  rcases containsSub_parts.mp h2 with ⟨z, w, rfl⟩
  exact containsSub_parts.mpr ⟨z ++ x, y ++ w, by simp⟩

theorem containsSub_lower {n h : Str} (hc : containsSub n h = true) :
    containsSub (lowerStr n) (lowerStr h) = true := by
  rcases containsSub_parts.mp hc with ⟨a, b, rfl⟩
  exact containsSub_parts.mpr ⟨lowerStr a, lowerStr b, by
    rw [← lowerStr_append, ← lowerStr_append]⟩

theorem upFree_of_sub {n h : Str} (hc : containsSub n h = true)
    (hu : upFree h = true) : upFree n = true := by
  rcases containsSub_parts.mp hc with ⟨a, b, rfl⟩
  rw [upFree_append, upFree_append, Bool.and_eq_true, Bool.and_eq_true] at hu
  exact hu.1.2

theorem wsFree_of_sub {n h : Str} (hc : containsSub n h = true)
    (hu : wsFree h = true) : wsFree n = true := by
  rcases containsSub_parts.mp hc with ⟨a, b, rfl⟩
  rw [wsFree_append, wsFree_append, Bool.and_eq_true, Bool.and_eq_true] at hu
  exact hu.1.2

/-!
Fuel-independence and step equations for the fuel-based recursions.
-/

theorem splitRunsAux_fuel (p : Nat → Bool) :
    ∀ bound f g (s : Str), s.length ≤ bound → s.length ≤ f → s.length ≤ g →
      splitRunsAux p f s = splitRunsAux p g s := by
  intro bound
  induction bound with
  | zero =>
    intro f g s hb _ _
    have : s = [] := List.eq_nil_of_length_eq_zero (Nat.le_zero.mp hb)
    subst this
    cases f <;> cases g <;> rfl
  | succ n ih =>
    intro f g s hb hf hg
    cases s with
    | nil => cases f <;> cases g <;> rfl
    | cons c rest =>
      rw [List.length_cons] at hb hf hg
      cases f with
      | zero => omega
      | succ f0 =>
        cases g with
        | zero => omega
        | succ g0 =>
          show (if p c then _ else _) = (if p c then _ else _)
          by_cases hc : p c = true
          · rw [if_pos hc, if_pos hc]
            have hd := (List.dropWhile_sublist (l := rest) p).length_le
            rw [ih f0 g0 (rest.dropWhile p) (by omega) (by omega) (by omega)]
          · rw [Bool.not_eq_true] at hc
            rw [if_neg (by simp [hc]), if_neg (by simp [hc])]
            rw [ih f0 g0 rest (by omega) (by omega) (by omega)]

theorem splitRuns_ws_cons {c : Nat} {t : Str} (h : isSpaceB c = true) :
    splitRuns isSpaceB (c :: t) = [] :: splitRuns isSpaceB (t.dropWhile isSpaceB) := by
  show splitRunsAux isSpaceB (t.length + 1) (c :: t) = _
  show (if isSpaceB c then _ else _) = _
  rw [if_pos h]
  have hd := (List.dropWhile_sublist (l := t) isSpaceB).length_le
  rw [splitRunsAux_fuel isSpaceB t.length t.length (t.dropWhile isSpaceB).length
    (t.dropWhile isSpaceB) hd hd (Nat.le_refl _)]
  rfl

theorem splitRuns_nonws_cons {c : Nat} {t : Str} (h : isSpaceB c = false) :
    splitRuns isSpaceB (c :: t) = consHead c (splitRuns isSpaceB t) := by
  show splitRunsAux isSpaceB (t.length + 1) (c :: t) = _
  show (if isSpaceB c then _ else _) = _
  rw [if_neg (by simp [h])]
  rfl

theorem splitRuns_ne (p : Nat → Bool) (s : Str) : splitRuns p s ≠ [] := by
  cases s with
  | nil => exact fun h => by cases h
  | cons c t =>
    show splitRunsAux p (t.length + 1) (c :: t) ≠ []
    show (if p c then _ else _) ≠ []
    by_cases hc : p c = true
    · rw [if_pos hc]
      exact fun h => by cases h
    · rw [Bool.not_eq_true] at hc
      rw [if_neg (by simp [hc])]
      cases splitRunsAux p t.length t with
      | nil => exact fun h => by cases h
      | cons a l => exact fun h => by cases h

theorem replaceAllAux_fuel (pat rep : Str) :
    ∀ bound f g (s : Str), s.length ≤ bound → s.length ≤ f → s.length ≤ g →
      replaceAllAux pat rep f s = replaceAllAux pat rep g s := by
  intro bound
  induction bound with
  | zero =>
    intro f g s hb _ _
    have : s = [] := List.eq_nil_of_length_eq_zero (Nat.le_zero.mp hb)
    subst this
    cases f <;> cases g <;> rfl
  | succ n ih =>
    intro f g s hb hf hg
    cases s with
    | nil => cases f <;> cases g <;> rfl
    | cons c rest =>
      rw [List.length_cons] at hb hf hg
      cases f with
      | zero => omega
      | succ f0 =>
        cases g with
        | zero => omega
        | succ g0 =>
          show (if _ then _ else _) = (if _ then _ else _)
          by_cases hc : pat ≠ [] ∧ pat.isPrefixOf (c :: rest) = true
          · rw [if_pos hc, if_pos hc]
            have hplen : 1 ≤ pat.length := by
              cases pat with
              | nil => exact absurd rfl hc.1
              | cons a l => exact Nat.succ_le_succ (Nat.zero_le _)
            have hd : ((c :: rest).drop pat.length).length ≤ rest.length := by
              rw [List.length_drop, List.length_cons]
              omega
            rw [ih f0 g0 ((c :: rest).drop pat.length) (by omega) (by omega)
              (by omega)]
          · rw [if_neg hc, if_neg hc]
            rw [ih f0 g0 rest (by omega) (by omega) (by omega)]

theorem replaceAll_pos {pat rep s : Str} (hp : pat ≠ [])
    (h : pat.isPrefixOf s = true) :
    replaceAll pat rep s = rep ++ replaceAll pat rep (s.drop pat.length) := by
  cases s with
  | nil =>
    rw [List.isPrefixOf_iff_prefix] at h
    have := List.prefix_nil.mp h
    exact absurd this hp
  | cons c rest =>
    show replaceAllAux pat rep (rest.length + 1) (c :: rest) = _
    show (if _ then _ else _) = _
    rw [if_pos ⟨hp, h⟩]
    congr 1
    have hplen : 1 ≤ pat.length := by
      cases pat with
      | nil => exact absurd rfl hp
      | cons a l => exact Nat.succ_le_succ (Nat.zero_le _)
    have hd : ((c :: rest).drop pat.length).length ≤ rest.length := by
      rw [List.length_drop, List.length_cons]
      omega
    exact replaceAllAux_fuel pat rep rest.length rest.length _ _ hd hd
      (Nat.le_refl _)

theorem replaceAll_neg {pat rep : Str} {c : Nat} {rest : Str}
    (h : pat.isPrefixOf (c :: rest) = false) :
    replaceAll pat rep (c :: rest) = c :: replaceAll pat rep rest := by
  show replaceAllAux pat rep (rest.length + 1) (c :: rest) = _
  show (if _ then _ else _) = _
  rw [if_neg (fun hc => by rw [hc.2] at h; cases h)]
  rfl

theorem replaceAll_of_not_contains {pat rep : Str} :
    ∀ {s : Str}, containsSub pat s = false → replaceAll pat rep s = s := by
  intro s
  induction s with
  | nil => intro _; rfl
  | cons c rest ih =>
    intro h
    rw [containsSub_cons] at h
    rw [Bool.or_eq_false_iff] at h
    rw [replaceAll_neg h.1, ih h.2]

/-!
Lemmas about `sepJoin` and the decomposition of one `replaceAll` pass.
-/

theorem sepJoin_cons_cons (sep A B : Str) (t : List Str) :
    sepJoin sep (A :: B :: t) = A ++ sep ++ sepJoin sep (B :: t) := rfl

theorem sepJoin_nonWs (v : Str) :
    ∀ As : List Str, As ≠ [] →
      nonWsCount (sepJoin v As) =
        (As.map nonWsCount).sum + (As.length - 1) * nonWsCount v := by
  intro As
  induction As with
  | nil => intro h; exact absurd rfl h
  | cons A t ih =>
    intro _
    cases t with
    | nil => simp [sepJoin]
    | cons B t2 =>
      rw [sepJoin_cons_cons]
      have ihv := ih (List.cons_ne_nil B t2)
      unfold nonWsCount at ihv ⊢
      rw [List.countP_append, List.countP_append, ihv]
      simp only [List.map_cons, List.sum_cons, List.length_cons,
        Nat.add_sub_cancel]
      rw [Nat.add_mul, Nat.one_mul]
      omega

theorem sepJoin_upFree {sep : Str} :
    ∀ {As : List Str}, (∀ A ∈ As, upFree A = true) → upFree sep = true →
      upFree (sepJoin sep As) = true := by
  intro As
  induction As with
  | nil => intro _ _; rfl
  | cons A t ih =>
    intro hA hsep
    cases t with
    | nil => exact hA A (List.mem_cons_self A [])
    | cons B t2 =>
      rw [sepJoin_cons_cons, upFree_append, upFree_append]
      rw [hA A (List.mem_cons_self _ _), hsep,
        ih (fun X hX => hA X (List.mem_cons_of_mem A hX)) hsep]
      rfl

theorem sepJoin_contains_sep (v : Str) {As : List Str} (h : 2 ≤ As.length) :
    containsSub v (sepJoin v As) = true := by
  cases As with
  | nil => cases h
  | cons A t =>
    cases t with
    | nil => rw [List.length_cons, List.length_nil] at h; omega
    | cons B t2 =>
      rw [sepJoin_cons_cons]
      exact containsSub_parts.mpr ⟨A, sepJoin v (B :: t2), by simp⟩

theorem replaceAll_decomp (v : Str) :
    ∀ bound (s : Str), s.length ≤ bound → ∀ pat : Str, pat ≠ [] →
      ∃ As : List Str, As ≠ [] ∧ s = sepJoin pat As ∧
        replaceAll pat v s = sepJoin v As ∧
        (containsSub pat s = true → 2 ≤ As.length) := by
  intro bound
  induction bound with
  | zero =>
    intro s hb pat hp
    have hs : s = [] := List.eq_nil_of_length_eq_zero (Nat.le_zero.mp hb)
    subst hs
    refine ⟨[[]], List.cons_ne_nil _ _, rfl, rfl, ?_⟩
    intro hc
    rw [containsSub_nil] at hc
    rw [List.isPrefixOf_iff_prefix] at hc
    exact absurd (List.prefix_nil.mp hc) hp
  | succ n ih =>
    intro s hb pat hp
    by_cases hc : containsSub pat s = true
    · by_cases hpre : pat.isPrefixOf s = true
      · rw [List.isPrefixOf_iff_prefix] at hpre
        rcases hpre with ⟨t, ht⟩
        have hdrop : s.drop pat.length = t := by
          rw [← ht, List.drop_left]
        have hplen : 1 ≤ pat.length := by
          cases pat with
          | nil => exact absurd rfl hp
          | cons a l => exact Nat.succ_le_succ (Nat.zero_le _)
        have hlen : t.length ≤ n := by
          have : s.length = pat.length + t.length := by
            rw [← ht, List.length_append]
          omega
        rcases ih t hlen pat hp with ⟨As, hne, hs1, hs2, _⟩
        cases As with
        | nil => exact absurd rfl hne
        | cons A0 rest =>
          refine ⟨[] :: A0 :: rest, List.cons_ne_nil _ _, ?_, ?_, ?_⟩
          · rw [sepJoin_cons_cons, ← hs1, ← ht]
            rfl
          · rw [replaceAll_pos hp (by rw [List.isPrefixOf_iff_prefix]; exact ⟨t, ht⟩),
              hdrop, hs2, sepJoin_cons_cons]
            rfl
          · intro _
            rw [List.length_cons, List.length_cons]
            omega
      · cases s with
        | nil =>
          rw [containsSub_nil] at hc
          rw [List.isPrefixOf_iff_prefix] at hc
          exact absurd (List.prefix_nil.mp hc) hp
        | cons c0 rest =>
          rw [containsSub_cons] at hc
          rw [Bool.or_eq_true] at hc
          rcases hc with hc1 | hc2
          · rw [Bool.not_eq_true] at hpre
            rw [hpre] at hc1
            cases hc1
          · rw [List.length_cons] at hb
            rcases ih rest (by omega) pat hp with ⟨As, hne, hs1, hs2, hs3⟩
            have h2 := hs3 hc2
            cases As with
            | nil => exact absurd rfl hne
            | cons A0 t =>
              cases t with
              | nil => rw [List.length_cons, List.length_nil] at h2; omega
              | cons B t2 =>
                rw [Bool.not_eq_true] at hpre
                refine ⟨(c0 :: A0) :: B :: t2, List.cons_ne_nil _ _, ?_, ?_, ?_⟩
                · rw [sepJoin_cons_cons, hs1, sepJoin_cons_cons]
                  rfl
                · rw [replaceAll_neg hpre, hs2, sepJoin_cons_cons,
                    sepJoin_cons_cons]
                  rfl
                · intro _
                  rw [List.length_cons, List.length_cons]
                  omega
    · rw [Bool.not_eq_true] at hc
      refine ⟨[s], List.cons_ne_nil _ _, rfl, replaceAll_of_not_contains hc, ?_⟩
      intro hcc
      rw [hcc] at hc
      cases hc

/-!
Structure of whitespace splitting: the head-run view of `splitWs` and its
consequences.
-/

theorem dropWhile_head_false {p : Nat → Bool} :
    ∀ {l : Str} {c : Nat} {r : Str}, l.dropWhile p = c :: r → p c = false := by
  intro l
  induction l with
  | nil => intro c r h; cases h
  | cons a t ih =>
    intro c r h
    rw [List.dropWhile_cons] at h
    by_cases ha : p a = true
    · rw [if_pos ha] at h
      exact ih h
    · rw [Bool.not_eq_true] at ha
      rw [if_neg (by rw [ha]; exact fun hf => by cases hf)] at h
      cases h
      exact ha

theorem fwdRun_wsFree (s : Str) : wsFree (fwdRun s) = true := by
  unfold wsFree fwdRun
  rw [List.all_eq_true]
  intro c hc
  simpa using List.mem_takeWhile_imp hc

theorem fwdRun_of_wsFree {u : Str} (h : wsFree u = true) : fwdRun u = u := by
  unfold wsFree at h
  rw [List.all_eq_true] at h
  unfold fwdRun
  induction u with
  | nil => rfl
  | cons c t ih =>
    rw [List.takeWhile_cons, if_pos (h c (List.mem_cons_self c t))]
    rw [ih (fun d hd => h d (List.mem_cons_of_mem c hd))]

theorem fwdRun_append_wsFree {u : Str} (w : Str) (h : wsFree u = true) :
    fwdRun (u ++ w) = u ++ fwdRun w := by
  unfold wsFree at h
  rw [List.all_eq_true] at h
  induction u with
  | nil => rfl
  | cons c t ih =>
    show fwdRun (c :: (t ++ w)) = _
    unfold fwdRun
    rw [List.takeWhile_cons, if_pos (h c (List.mem_cons_self c t))]
    show c :: fwdRun (t ++ w) = _
    rw [ih (fun d hd => h d (List.mem_cons_of_mem c hd))]
    rfl

theorem fwdRun_append_stops {u : Str} (w : Str) (h : wsFree u = false) :
    fwdRun (u ++ w) = fwdRun u := by
  induction u with
  | nil => cases h
  | cons c t ih =>
    by_cases hc : isSpaceB c = true
    · show fwdRun (c :: (t ++ w)) = fwdRun (c :: t)
      unfold fwdRun
      rw [List.takeWhile_cons, List.takeWhile_cons,
        if_neg (by rw [hc]; exact fun hf => by cases hf),
        if_neg (by rw [hc]; exact fun hf => by cases hf)]
    · rw [Bool.not_eq_true] at hc
      have ht : wsFree t = false := by
        unfold wsFree at h ⊢
        rw [List.all_cons, hc] at h
        simpa using h
      show fwdRun (c :: (t ++ w)) = fwdRun (c :: t)
      unfold fwdRun
      rw [List.takeWhile_cons, List.takeWhile_cons,
        if_pos (by simp [hc]), if_pos (by simp [hc])]
      show c :: fwdRun (t ++ w) = c :: fwdRun t
      rw [ih ht]

theorem fwdRun_append_ext (u w : Str) :
    ∃ e, fwdRun (u ++ w) = fwdRun u ++ e := by
  by_cases h : wsFree u = true
  · exact ⟨fwdRun w, by rw [fwdRun_append_wsFree w h, fwdRun_of_wsFree h]⟩
  · rw [Bool.not_eq_true] at h
    exact ⟨[], by rw [fwdRun_append_stops w h, List.append_nil]⟩

theorem splitWs_nil : splitWs [] = [] := rfl

theorem filter_consHead_runs :
    ∀ (t : Str) (c : Nat), isSpaceB c = false →
      (consHead c (splitRuns isSpaceB t)).filter (fun w => w ≠ []) =
        (c :: fwdRun t) :: splitWs (afterRun t) := by
  intro t
  induction t with
  | nil =>
    intro c _
    rfl
  | cons d t2 ih =>
    intro c hc
    by_cases hd : isSpaceB d = true
    · rw [splitRuns_ws_cons hd]
      show ([c] :: splitRuns isSpaceB (t2.dropWhile isSpaceB)).filter _ = _
      rw [List.filter_cons]
      rw [if_pos (by exact decide_eq_true (List.cons_ne_nil c []))]
      have hfwd : fwdRun (d :: t2) = [] := by
        unfold fwdRun
        rw [List.takeWhile_cons, if_neg (by rw [hd]; exact fun hf => by cases hf)]
      have hafter : afterRun (d :: t2) = t2.dropWhile isSpaceB := by
        unfold afterRun
        rw [List.dropWhile_cons, if_neg (by rw [hd]; exact fun hf => by cases hf)]
        rw [List.dropWhile_cons, if_pos (by simp [hd])]
      rw [hfwd, hafter]
      rfl
    · rw [Bool.not_eq_true] at hd
      rw [splitRuns_nonws_cons hd]
      have hne := splitRuns_ne isSpaceB t2
      cases hR : splitRuns isSpaceB t2 with
      | nil => exact absurd hR hne
      | cons h0 tl =>
        have ihx := ih d hd
        rw [hR] at ihx
        show ((c :: d :: h0) :: tl).filter _ = _
        rw [List.filter_cons, if_pos (by exact decide_eq_true (List.cons_ne_nil _ _))]
        have ihy : (d :: h0) :: tl.filter (fun w => decide (w ≠ [])) =
            (d :: fwdRun t2) :: splitWs (afterRun t2) := by
          rw [← ihx]
          show (d :: h0) :: _ = List.filter _ ((d :: h0) :: tl)
          rw [List.filter_cons, if_pos (by exact decide_eq_true (List.cons_ne_nil _ _))]
        have hh0 : (d :: h0 : Str) = d :: fwdRun t2 := by
          injection ihy
        have hh : h0 = fwdRun t2 := by
          injection hh0
        have htl : tl.filter (fun w => decide (w ≠ [])) = splitWs (afterRun t2) := by
          injection ihy
        have hfwd : fwdRun (d :: t2) = d :: fwdRun t2 := by
          unfold fwdRun
          rw [List.takeWhile_cons, if_pos (by simp [hd])]
        have hafter : afterRun (d :: t2) = afterRun t2 := by
          unfold afterRun
          rw [List.dropWhile_cons, if_pos (by simp [hd])]
        rw [hfwd, hafter, hh, htl]

theorem splitWs_view (s : Str) :
    splitWs s = (if fwdRun s = [] then [] else [fwdRun s]) ++
      splitWs (afterRun s) := by
  cases s with
  | nil => rfl
  | cons c t =>
    by_cases hc : isSpaceB c = true
    · have hfwd : fwdRun (c :: t) = [] := by
        unfold fwdRun
        rw [List.takeWhile_cons, if_neg (by rw [hc]; exact fun hf => by cases hf)]
      have hafter : afterRun (c :: t) = t.dropWhile isSpaceB := by
        unfold afterRun
        rw [List.dropWhile_cons, if_neg (by rw [hc]; exact fun hf => by cases hf)]
        rw [List.dropWhile_cons, if_pos (by simp [hc])]
      rw [hfwd, hafter, if_pos rfl, List.nil_append]
      show (splitRuns isSpaceB (c :: t)).filter _ = _
      rw [splitRuns_ws_cons hc]
      rfl
    · rw [Bool.not_eq_true] at hc
      have hfwd : fwdRun (c :: t) = c :: fwdRun t := by
        unfold fwdRun
        rw [List.takeWhile_cons, if_pos (by simp [hc])]
      rw [hfwd, if_neg (List.cons_ne_nil _ _)]
      show (splitRuns isSpaceB (c :: t)).filter _ = _
      rw [splitRuns_nonws_cons hc, filter_consHead_runs t c hc]
      have hafter : afterRun (c :: t) = afterRun t := by
        unfold afterRun
        rw [List.dropWhile_cons, if_pos (by simp [hc])]
      rw [hafter]
      rfl

theorem splitWs_mem_ne {s : Str} {w : Str} (h : w ∈ splitWs s) : w ≠ [] := by
  unfold splitWs at h
  have := List.of_mem_filter h
  exact of_decide_eq_true this

theorem splitWs_dropWs : ∀ t : Str, splitWs (t.dropWhile isSpaceB) = splitWs t := by
  intro t
  induction t with
  | nil => rfl
  | cons d t2 ih =>
    by_cases hd : isSpaceB d = true
    · rw [List.dropWhile_cons, if_pos (by simp [hd])]
      rw [ih]
      show _ = (splitRuns isSpaceB (d :: t2)).filter _
      rw [splitRuns_ws_cons hd]
      show splitWs t2 = (splitRuns isSpaceB (t2.dropWhile isSpaceB)).filter _
      rw [← ih]
      rfl
    · rw [Bool.not_eq_true] at hd
      rw [List.dropWhile_cons, if_neg (by rw [hd]; exact fun hf => by cases hf)]

theorem afterRun_length_lt {s : Str} (h : s ≠ []) :
    (afterRun s).length < s.length := by
  cases s with
  | nil => exact absurd rfl h
  | cons c t =>
    unfold afterRun
    by_cases hc : isSpaceB c = true
    · rw [List.dropWhile_cons, if_neg (by rw [hc]; exact fun hf => by cases hf)]
      rw [List.dropWhile_cons, if_pos (by simp [hc])]
      have := (List.dropWhile_sublist (l := t) isSpaceB).length_le
      rw [List.length_cons]
      omega
    · rw [Bool.not_eq_true] at hc
      rw [List.dropWhile_cons, if_pos (by simp [hc])]
      have h1 := (List.dropWhile_sublist (l := t) (fun c => !isSpaceB c)).length_le
      have h2 := (List.dropWhile_sublist
        (l := t.dropWhile (fun c => !isSpaceB c)) isSpaceB).length_le
      rw [List.length_cons]
      omega

theorem fwdRun_ws_cons {c : Nat} {t : Str} (hc : isSpaceB c = true) :
    fwdRun (c :: t) = [] := by
  unfold fwdRun
  rw [List.takeWhile_cons, if_neg (by simp [hc])]

theorem fwdRun_nonws_cons {c : Nat} {t : Str} (hc : isSpaceB c = false) :
    fwdRun (c :: t) = c :: fwdRun t := by
  unfold fwdRun
  rw [List.takeWhile_cons, if_pos (by simp [hc])]

theorem afterRun_ws_cons {c : Nat} {t : Str} (hc : isSpaceB c = true) :
    afterRun (c :: t) = t.dropWhile isSpaceB := by
  unfold afterRun
  rw [List.dropWhile_cons, if_neg (by simp [hc]), List.dropWhile_cons,
    if_pos (by simp [hc])]

theorem afterRun_nonws_cons {c : Nat} {t : Str} (hc : isSpaceB c = false) :
    afterRun (c :: t) = afterRun t := by
  unfold afterRun
  rw [List.dropWhile_cons, if_pos (by simp [hc])]

theorem splitWs_ws_cons {c : Nat} {t : Str} (hc : isSpaceB c = true) :
    splitWs (c :: t) = splitWs t := by
  rw [splitWs_view (c :: t), fwdRun_ws_cons hc, afterRun_ws_cons hc, if_pos rfl,
    List.nil_append, splitWs_dropWs]

theorem splitWs_nonws_cons {c : Nat} {t : Str} (hc : isSpaceB c = false) :
    splitWs (c :: t) = (c :: fwdRun t) :: splitWs (afterRun t) := by
  rw [splitWs_view (c :: t), fwdRun_nonws_cons hc, afterRun_nonws_cons hc,
    if_neg (List.cons_ne_nil _ _)]
  rfl

theorem getLast?_append_right {A B : Str} (h : B ≠ []) :
    (A ++ B).getLast? = B.getLast? := by
  rw [List.getLast?_append]
  rcases hB : B.getLast? with _ | x
  · exfalso
    have hsome : B.getLast?.isSome = true := List.getLast?_isSome.mpr h
    rw [hB] at hsome
    cases hsome
  · rfl

theorem getLast?_struct {l : Str} {d : Nat} (h : l.getLast? = some d) :
    ∃ l0, l = l0 ++ [d] := by
  cases l with
  | nil => cases h
  | cons a t =>
    have hne : (a :: t : Str) ≠ [] := List.cons_ne_nil a t
    rw [List.getLast?_eq_getLast (a :: t) hne] at h
    have hd : (a :: t).getLast hne = d := Option.some.inj h
    exact ⟨(a :: t).dropLast, by rw [← hd, List.dropLast_append_getLast hne]⟩

theorem mem_of_getLast? {l : Str} {d : Nat} (h : l.getLast? = some d) : d ∈ l := by
  rcases getLast?_struct h with ⟨l0, rfl⟩
  exact List.mem_append_right l0 (List.mem_cons_self d [])

theorem run_decomp (s : Str) :
    s = fwdRun s ++ (s.dropWhile (fun c => !isSpaceB c)).takeWhile isSpaceB
      ++ afterRun s := by
  unfold afterRun fwdRun
  rw [List.append_assoc, List.takeWhile_append_dropWhile,
    List.takeWhile_append_dropWhile]

theorem splitWs_occ :
    ∀ bound (s : Str), s.length ≤ bound → ∀ w ∈ splitWs s,
      ∃ X Z, s = X ++ (w ++ Z) ∧ wsFree w = true ∧ w ≠ [] ∧
        (Z = [] ∨ isSpaceB (Z.headD 0) = true) ∧
        (∀ d, X.getLast? = some d → isSpaceB d = true) := by
  intro bound
  induction bound with
  | zero =>
    intro s hb w hw
    have : s = [] := List.eq_nil_of_length_eq_zero (Nat.le_zero.mp hb)
    subst this
    cases hw
  | succ n ih =>
    intro s hb w hw
    by_cases hs : s = []
    · subst hs
      cases hw
    · rw [splitWs_view] at hw
      rcases List.mem_append.mp hw with hw1 | hw2
      · by_cases hf : fwdRun s = []
        · rw [if_pos hf] at hw1
          cases hw1
        · rw [if_neg hf] at hw1
          have hwf : w = fwdRun s := by
            rcases List.mem_singleton.mp hw1 with h
            exact h
          subst hwf
          refine ⟨[], s.dropWhile (fun c => !isSpaceB c), ?_, fwdRun_wsFree s,
            hf, ?_, ?_⟩
          · rw [List.nil_append]
            unfold fwdRun
            rw [List.takeWhile_append_dropWhile]
          · cases hz : s.dropWhile (fun c => !isSpaceB c) with
            | nil => exact Or.inl rfl
            | cons z zr =>
              right
              have := dropWhile_head_false hz
              rw [List.headD_cons]
              simpa using this
          · intro d hd
            cases hd
      · have hlt := afterRun_length_lt hs
        rcases ih (afterRun s) (by omega) w hw2 with ⟨X, Z, hsplit, hwf, hwne, hZ, hX⟩
        refine ⟨fwdRun s ++ (s.dropWhile (fun c => !isSpaceB c)).takeWhile isSpaceB
          ++ X, Z, ?_, hwf, hwne, hZ, ?_⟩
        · rw [List.append_assoc, ← hsplit]
          exact run_decomp s
        · intro d hd
          by_cases hXne : X = []
          · subst hXne
            rw [List.append_nil] at hd
            have hAe : afterRun s ≠ [] := by
              intro hae
              rw [hae] at hw2
              cases hw2
            have hdnw : s.dropWhile (fun c => !isSpaceB c) ≠ [] := by
              intro hde
              unfold afterRun at hAe
              rw [hde] at hAe
              exact hAe rfl
            have hws : (s.dropWhile (fun c => !isSpaceB c)).takeWhile isSpaceB ≠ [] := by
              cases hz : s.dropWhile (fun c => !isSpaceB c) with
              | nil => exact absurd hz hdnw
              | cons z zr =>
                have hzws := dropWhile_head_false hz
                rw [List.takeWhile_cons, if_pos (by simpa using hzws)]
                exact List.cons_ne_nil _ _
            rw [getLast?_append_right hws] at hd
            have hmem := mem_of_getLast? hd
            exact List.mem_takeWhile_imp hmem
          · rw [getLast?_append_right hXne] at hd
            exact hX d hd

theorem splitWs_mem_wsFree {s w : Str} (h : w ∈ splitWs s) : wsFree w = true := by
  rcases splitWs_occ s.length s (Nat.le_refl _) w h with ⟨_, _, _, hwf, _⟩
  exact hwf

theorem countP_nonws_all {u : Str} (h : ∀ c ∈ u, isSpaceB c = false) :
    u.countP (fun c => !isSpaceB c) = u.length :=
  List.countP_eq_length.mpr (fun c hc => by simp [h c hc])

theorem countP_nonws_zero {u : Str} (h : ∀ c ∈ u, isSpaceB c = true) :
    u.countP (fun c => !isSpaceB c) = 0 :=
  List.countP_eq_zero.mpr (fun c hc => by simp [h c hc])

theorem nonWs_eq_sum_words :
    ∀ bound (s : Str), s.length ≤ bound →
      ((splitWs s).map List.length).sum = nonWsCount s := by
  intro bound
  induction bound with
  | zero =>
    intro s hb
    have : s = [] := List.eq_nil_of_length_eq_zero (Nat.le_zero.mp hb)
    subst this
    rfl
  | succ n ih =>
    intro s hb
    by_cases hs : s = []
    · subst hs
      rfl
    · have hlt := afterRun_length_lt hs
      have hihv := ih (afterRun s) (by omega)
      have hdec := run_decomp s
      have hcount : nonWsCount s = (fwdRun s).length + nonWsCount (afterRun s) := by
        unfold nonWsCount
        conv =>
          lhs
          rw [hdec]
        rw [List.countP_append, List.countP_append]
        rw [countP_nonws_all (fun c hc => by
          have := List.mem_takeWhile_imp hc
          simpa using this)]
        rw [countP_nonws_zero (fun c hc => List.mem_takeWhile_imp hc)]
        omega
      rw [splitWs_view, hcount, List.map_append, List.sum_append, hihv]
      by_cases hf : fwdRun s = []
      · rw [if_pos hf, hf]
        rfl
      · rw [if_neg hf]
        show (fwdRun s).length + _ = _
        rfl

theorem splitWs_lower :
    ∀ bound (s : Str), s.length ≤ bound →
      splitWs (lowerStr s) = (splitWs s).map lowerStr := by
  intro bound
  induction bound with
  | zero =>
    intro s hb
    have : s = [] := List.eq_nil_of_length_eq_zero (Nat.le_zero.mp hb)
    subst this
    rfl
  | succ n ih =>
    intro s hb
    have hcomp : ((fun c => !isSpaceB c) ∘ lowChar) = (fun c => !isSpaceB c) :=
      funext (fun c => by
        show (!isSpaceB (lowChar c)) = !isSpaceB c
        rw [isSpaceB_lowChar])
    have hcomp2 : (isSpaceB ∘ lowChar) = isSpaceB :=
      funext (fun c => isSpaceB_lowChar c)
    have hfwd : fwdRun (lowerStr s) = lowerStr (fwdRun s) := by
      unfold fwdRun lowerStr
      rw [List.takeWhile_map, hcomp]
    have hafter : afterRun (lowerStr s) = lowerStr (afterRun s) := by
      unfold afterRun lowerStr
      rw [List.dropWhile_map, hcomp, List.dropWhile_map, hcomp2]
    by_cases hs : s = []
    · subst hs
      rfl
    · have hlt := afterRun_length_lt hs
      rw [splitWs_view (lowerStr s), splitWs_view s, hfwd, hafter,
        ih (afterRun s) (by omega), List.map_append]
      by_cases hf : fwdRun s = []
      · rw [if_pos hf, hf]
        rfl
      · rw [if_neg hf, if_neg (fun hc => hf (by
          unfold lowerStr at hc
          exact List.map_eq_nil_iff.mp hc))]
        rfl

theorem joinSpace_nil : joinSpace [] = [] := rfl

theorem joinSpace_single (w : Str) : joinSpace [w] = w := by
  simp [joinSpace, List.intercalate]

theorem joinSpace_cons_cons (a b : Str) (t : List Str) :
    joinSpace (a :: b :: t) = a ++ [32] ++ joinSpace (b :: t) := by
  simp [joinSpace, List.intercalate]

theorem joinSpace_head (b : Str) (t : List Str) :
    ∃ r, joinSpace (b :: t) = b ++ r := by
  cases t with
  | nil => exact ⟨[], by rw [joinSpace_single, List.append_nil]⟩
  | cons b2 t2 =>
    exact ⟨[32] ++ joinSpace (b2 :: t2), by
      rw [joinSpace_cons_cons, List.append_assoc]⟩

theorem dropWhile_append_all {p : Nat → Bool} {u : Str} (r : Str)
    (h : ∀ c ∈ u, p c = true) : (u ++ r).dropWhile p = r.dropWhile p := by
  induction u with
  | nil => rfl
  | cons c t ihh =>
    show ((c :: (t ++ r)).dropWhile p) = _
    rw [List.dropWhile_cons, if_pos (h c (List.mem_cons_self c t))]
    exact ihh (fun d hd => h d (List.mem_cons_of_mem c hd))

theorem dropWhile_all {p : Nat → Bool} :
    ∀ {u : Str}, (∀ c ∈ u, p c = true) → u.dropWhile p = [] := by
  intro u
  induction u with
  | nil => intro _; rfl
  | cons c t ih =>
    intro h
    rw [List.dropWhile_cons, if_pos (h c (List.mem_cons_self c t))]
    exact ih (fun d hd => h d (List.mem_cons_of_mem c hd))

theorem splitWs_joinSpace :
    ∀ ws : List Str, (∀ w ∈ ws, w ≠ [] ∧ wsFree w = true) →
      splitWs (joinSpace ws) = ws := by
  intro ws
  induction ws with
  | nil => intro _; rfl
  | cons w t ih =>
    intro h
    rcases h w (List.mem_cons_self w t) with ⟨hwne, hwf⟩
    have hall : ∀ c ∈ w, isSpaceB c = false := by
      intro c hc
      unfold wsFree at hwf
      rw [List.all_eq_true] at hwf
      simpa using hwf c hc
    cases t with
    | nil =>
      rw [joinSpace_single]
      rw [splitWs_view w, fwdRun_of_wsFree hwf, if_neg hwne]
      have h1 : w.dropWhile (fun c => !isSpaceB c) = [] :=
        dropWhile_all (fun c hc => by simp [hall c hc])
      have hafter : afterRun w = [] := by
        unfold afterRun
        rw [h1]
        rfl
      rw [hafter]
      rfl
    | cons b t2 =>
      rcases h b (List.mem_cons_of_mem w (List.mem_cons_self b t2)) with ⟨hbne, hbwf⟩
      have hfwd : fwdRun (w ++ ([32] ++ joinSpace (b :: t2))) = w := by
        rw [fwdRun_append_wsFree _ hwf]
        have h32 : fwdRun ([32] ++ joinSpace (b :: t2)) = [] := by
          show fwdRun (32 :: joinSpace (b :: t2)) = []
          exact fwdRun_ws_cons (by decide)
        rw [h32, List.append_nil]
      have hafter : afterRun (w ++ ([32] ++ joinSpace (b :: t2))) =
          joinSpace (b :: t2) := by
        unfold afterRun
        rw [dropWhile_append_all _ (fun c hc => by simp [hall c hc])]
        show ((32 :: joinSpace (b :: t2)).dropWhile (fun c => !isSpaceB c)).dropWhile
          isSpaceB = _
        rw [List.dropWhile_cons, if_neg (by decide), List.dropWhile_cons,
          if_pos (by decide)]
        rcases joinSpace_head b t2 with ⟨r, hr⟩
        rw [hr]
        cases b with
        | nil => exact absurd rfl hbne
        | cons b0 br =>
          have hb0 : isSpaceB b0 = false := by
            unfold wsFree at hbwf
            rw [List.all_eq_true] at hbwf
            simpa using hbwf b0 (List.mem_cons_self b0 br)
          show ((b0 :: (br ++ r)).dropWhile isSpaceB) = (b0 :: br) ++ r
          rw [List.dropWhile_cons, if_neg (by simp [hb0])]
          rfl
      have hjoin : joinSpace (w :: b :: t2) = w ++ ([32] ++ joinSpace (b :: t2)) := by
        rw [joinSpace_cons_cons, List.append_assoc]
      rw [hjoin, splitWs_view (w ++ ([32] ++ joinSpace (b :: t2))), hfwd, hafter,
        if_neg hwne, ih (fun x hx => h x (List.mem_cons_of_mem w hx))]
      rfl

theorem sub_wsFree_in_word :
    ∀ bound (s x : Str), s.length ≤ bound → containsSub x s = true →
      wsFree x = true → x ≠ [] → ∃ u ∈ splitWs s, containsSub x u = true := by
  intro bound
  induction bound with
  | zero =>
    intro s x hb hc hwf hne
    have hs : s = [] := List.eq_nil_of_length_eq_zero (Nat.le_zero.mp hb)
    subst hs
    rcases containsSub_parts.mp hc with ⟨a, b, hab⟩
    rcases List.append_eq_nil.mp hab.symm with ⟨hab1, _⟩
    rcases List.append_eq_nil.mp hab1 with ⟨_, hx⟩
    exact absurd hx hne
  | succ n ih =>
    intro s x hb hc hwf hne
    rcases containsSub_parts.mp hc with ⟨a, b, hab⟩
    cases a with
    | nil =>
      rw [List.nil_append] at hab
      subst hab
      refine ⟨fwdRun (x ++ b), ?_, ?_⟩
      · rw [splitWs_view (x ++ b)]
        have hfwd : fwdRun (x ++ b) = x ++ fwdRun b := fwdRun_append_wsFree b hwf
        have hfne : fwdRun (x ++ b) ≠ [] := by
          rw [hfwd]
          intro hcc
          exact hne (List.append_eq_nil.mp hcc).1
        rw [if_neg hfne]
        exact List.mem_append_left _ (List.mem_singleton.mpr rfl)
      · rw [fwdRun_append_wsFree b hwf]
        exact containsSub_parts.mpr ⟨[], fwdRun b, by rw [List.nil_append]⟩
    | cons c a2 =>
      have hab2 : s = c :: (a2 ++ x ++ b) := by
        rw [hab]
        rfl
      subst hab2
      rw [List.length_cons] at hb
      have hct : containsSub x (a2 ++ x ++ b) = true :=
        containsSub_parts.mpr ⟨a2, b, rfl⟩
      rcases ih (a2 ++ x ++ b) x (by omega) hct hwf hne with ⟨u, hu, hxu⟩
      by_cases hcw : isSpaceB c = true
      · rw [splitWs_ws_cons hcw]
        exact ⟨u, hu, hxu⟩
      · rw [Bool.not_eq_true] at hcw
        rw [splitWs_nonws_cons hcw]
        rw [splitWs_view (a2 ++ x ++ b)] at hu
        rcases List.mem_append.mp hu with hu1 | hu2
        · by_cases hf : fwdRun (a2 ++ x ++ b) = []
          · rw [if_pos hf] at hu1
            cases hu1
          · rw [if_neg hf] at hu1
            have hueq : u = fwdRun (a2 ++ x ++ b) := List.mem_singleton.mp hu1
            refine ⟨c :: fwdRun (a2 ++ x ++ b), List.mem_cons_self _ _, ?_⟩
            rw [← hueq]
            show containsSub x ([c] ++ u) = true
            exact containsSub_mono_left [c] hxu
        · exact ⟨u, List.mem_cons_of_mem _ hu2, hxu⟩

theorem loc_split {P Q X Y : Str} {c : Nat} (h : P ++ Q = X ++ c :: Y) :
    (∃ Y1, P = X ++ c :: Y1 ∧ Y = Y1 ++ Q) ∨
    (∃ X2, Q = X2 ++ c :: Y ∧ X = P ++ X2) := by
  rcases List.append_eq_append_iff.mp h with ⟨a2, ha1, ha2⟩ | ⟨c2, hc1, hc2⟩
  · right
    exact ⟨a2, ha2, ha1⟩
  · cases c2 with
    | nil =>
      right
      have hP : P = X := by
        rw [List.append_nil] at hc1
        exact hc1
      have hQ : Q = c :: Y := by
        rw [List.nil_append] at hc2
        exact hc2.symm
      refine ⟨[], ?_, ?_⟩
      · rw [List.nil_append]
        exact hQ
      · rw [List.append_nil]
        exact hP.symm
    | cons e c3 =>
      left
      have h2 : c :: Y = e :: (c3 ++ Q) := by
        rw [hc2]
        rfl
      have hinj1 : c = e := ((List.cons.injEq _ _ _ _).mp h2).1
      have hinj2 : Y = c3 ++ Q := ((List.cons.injEq _ _ _ _).mp h2).2
      refine ⟨c3, ?_, hinj2⟩
      rw [hc1, hinj1]

theorem upInv_of_upFree {n : Str} (h : upFree n = true) : UpInv n := by
  intro X c Y heq hup
  exfalso
  unfold upFree at h
  rw [List.all_eq_true] at h
  have hmem : c ∈ n := by
    rw [heq]
    exact List.mem_append_right X (List.mem_cons_self c Y)
  have := h c hmem
  rw [hup] at this
  cases this

theorem upInvB_spec {v : Str} (h : upInvB v = true) : UpInv v := by
  intro Xv c Yv heq hup
  unfold upInvB at h
  rw [List.all_eq_true] at h
  have hlen : Xv.length < v.length := by
    rw [heq, List.length_append, List.length_cons]
    omega
  have hb := h Xv.length (List.mem_range.mpr hlen)
  have hdrop : v.drop Xv.length = c :: Yv := by
    rw [heq, List.drop_left]
  have htake : v.take Xv.length = Xv := by
    rw [heq]
    exact List.take_left Xv (c :: Yv)
  rw [hdrop, htake] at hb
  simp only [hup, Bool.not_true, Bool.false_or] at hb
  rw [Bool.or_eq_true] at hb
  rcases hb with hguard | hcert
  · left
    rcases hlast : Xv.getLast? with _ | d
    · rw [hlast] at hguard
      cases hguard
    · rw [hlast] at hguard
      rcases getLast?_struct hlast with ⟨X0, hX0⟩
      exact ⟨X0, d, hX0, hguard⟩
  · right
    rcases List.any_eq_true.mp hcert with ⟨S, hS, hSc⟩
    exact ⟨S, hS, hSc⟩

/-!
Decidable facts about the alias table, its canonical labels and the
certificate list, checked by evaluation.
-/

theorem stdTablePatternFacts :
    nameMappingsStd.all (fun pr => decide (pr.1 ≠ []) && upFree pr.1 &&
      (lookupStr pr.1 nameMappingsStd).isSome) = true := by decide

theorem stdTableValueFacts :
    nameMappingsStd.all (fun pr => decide (pr.2 ≠ []) && !upFree pr.2 &&
      (wsFree pr.2 || twoWordB pr.2) && upInvB pr.2 &&
      segCerts.any (fun S => containsSub S (fwdRun pr.2))) = true := by decide

theorem stdCertFacts :
    segCerts.all (fun S => lowercaseWords.all
      (fun w => !containsSub (lowerStr S) w)) = true := by decide

theorem stdStopFacts :
    lowercaseWords.all (fun w => decide (lowerStr w = w) && decide (w ≠ []) &&
      wsFree w) = true := by decide

theorem stdValueNoStop :
    nameMappingsStd.all (fun pr => (splitWs pr.2).all
      (fun u => !(memB (lowerStr u) lowercaseWords))) = true := by decide

theorem stdValuesLowInj :
    nameMappingsStd.all (fun pr1 => nameMappingsStd.all (fun pr2 =>
      !decide (lowerStr pr1.2 = lowerStr pr2.2) ||
        decide (pr1.2 = pr2.2))) = true := by decide

theorem stdBadKey :
    badValues.all (fun V => (splitWs V).any
      (fun u => nameMappingsStd.any
        (fun pr => decide (pr.1 = lowerStr u)))) = true := by decide

theorem stdEmbedSingle :
    nameMappingsStd.all (fun pr => !wsFree pr.2 ||
      badValues.all (fun V => (splitWs V).all (fun u =>
        !containsSub (lowerStr pr.2) (lowerStr u) ||
        (decide (lowerStr pr.2 = lowerStr u) &&
          decide (splitWs V = [u]))))) = true := by decide

theorem stdEmbedDouble :
    nameMappingsStd.all (fun pr => wsFree pr.2 ||
      badValues.all (fun V =>
        !((splitWs V).any (fun u =>
            containsSub (lowerStr (fwdRun pr.2)) (lowerStr u)) &&
          (splitWs V).any (fun u =>
            containsSub (lowerStr (pr.2.drop ((fwdRun pr.2).length + 1)))
              (lowerStr u))) ||
        decide (nonWsCount pr.2 = nonWsCount V))) = true := by decide

theorem table_pattern_facts {pr : Str × Str} (h : pr ∈ nameMappingsStd) :
    pr.1 ≠ [] ∧ upFree pr.1 = true ∧
      (lookupStr pr.1 nameMappingsStd).isSome = true := by
  have hb := List.all_eq_true.mp stdTablePatternFacts pr h
  rw [Bool.and_eq_true, Bool.and_eq_true] at hb
  exact ⟨of_decide_eq_true hb.1.1, hb.1.2, hb.2⟩

theorem table_value_facts {pr : Str × Str} (h : pr ∈ nameMappingsStd) :
    pr.2 ≠ [] ∧ upFree pr.2 = false ∧
      (wsFree pr.2 = true ∨ twoWordB pr.2 = true) ∧ UpInv pr.2 ∧
      ∃ S ∈ segCerts, containsSub S (fwdRun pr.2) = true := by
  have hb := List.all_eq_true.mp stdTableValueFacts pr h
  rw [Bool.and_eq_true, Bool.and_eq_true, Bool.and_eq_true,
    Bool.and_eq_true] at hb
  refine ⟨of_decide_eq_true hb.1.1.1.1, ?_, ?_, upInvB_spec hb.1.2, ?_⟩
  · have := hb.1.1.1.2
    rw [Bool.not_eq_true'] at this
    exact this
  · have hor := hb.1.1.2
    rw [Bool.or_eq_true] at hor
    exact hor
  · rcases List.any_eq_true.mp hb.2 with ⟨S, hS, hSc⟩
    exact ⟨S, hS, hSc⟩

theorem drop_fwdRun (s : Str) :
    s.drop (fwdRun s).length = s.dropWhile (fun c => !isSpaceB c) := by
  have h := List.takeWhile_append_dropWhile (fun c => !isSpaceB c) s
  calc s.drop (fwdRun s).length
      = (s.takeWhile (fun c => !isSpaceB c) ++
          s.dropWhile (fun c => !isSpaceB c)).drop
          (s.takeWhile (fun c => !isSpaceB c)).length := by rw [h]; rfl
    _ = s.dropWhile (fun c => !isSpaceB c) := List.drop_left _ _

theorem twoWordB_spec {v : Str} (h : twoWordB v = true) :
    ∃ v2, v = fwdRun v ++ 32 :: v2 ∧ wsFree v2 = true ∧ v2 ≠ [] ∧
      fwdRun v ≠ [] := by
  unfold twoWordB at h
  split at h
  · rename_i v2 heq
    rw [Bool.and_eq_true, Bool.and_eq_true] at h
    refine ⟨v2, ?_, h.1.2, of_decide_eq_true h.2, of_decide_eq_true h.1.1⟩
    have hdw : v.dropWhile (fun c => !isSpaceB c) = 32 :: v2 := by
      rw [← drop_fwdRun]
      exact heq
    calc v = v.takeWhile (fun c => !isSpaceB c) ++
          v.dropWhile (fun c => !isSpaceB c) :=
          (List.takeWhile_append_dropWhile _ _).symm
      _ = fwdRun v ++ 32 :: v2 := by rw [hdw]; rfl
  · cases h

theorem upInv_transport {A p n2 : Str} (hpne : p ≠ []) (hpu : upFree p = true)
    (hInv : UpInv (A ++ p ++ n2)) : UpInv n2 := by
  intro X c Y heq hup
  have heq2 : A ++ p ++ n2 = (A ++ p ++ X) ++ c :: Y := by
    rw [heq]
    simp [List.append_assoc]
  rcases hInv _ c _ heq2 hup with ⟨X0, d, hX0, hd⟩ | hcert
  · have h1 : (A ++ p ++ X).getLast? = some d := by
      rw [hX0, getLast?_append_right (List.cons_ne_nil d [])]
      rfl
    by_cases hXe : X = []
    · exfalso
      subst hXe
      rw [List.append_nil] at h1
      rw [getLast?_append_right hpne] at h1
      have hmem := mem_of_getLast? h1
      unfold upFree at hpu
      rw [List.all_eq_true] at hpu
      have := hpu d hmem
      rw [hd] at this
      cases this
    · left
      rw [getLast?_append_right hXe] at h1
      rcases getLast?_struct h1 with ⟨X0q, hX0q⟩
      exact ⟨X0q, d, hX0q, hd⟩
  · exact Or.inr hcert

theorem upInv_sepJoin {p v : Str} (hpne : p ≠ []) (hpu : upFree p = true)
    (hvInv : UpInv v) (hvfc : ∃ S ∈ segCerts, containsSub S (fwdRun v) = true) :
    ∀ As : List Str, UpInv (sepJoin p As) → UpInv (sepJoin v As) := by
  intro As
  induction As with
  | nil => intro h; exact h
  | cons A t ih =>
    cases t with
    | nil => intro h; exact h
    | cons B t2 =>
      intro hInv
      rw [sepJoin_cons_cons] at hInv ⊢
      have hr2 : UpInv (sepJoin v (B :: t2)) := ih (upInv_transport hpne hpu hInv)
      intro X c Y heq hup
      rcases loc_split heq with ⟨Y1, hP, hY⟩ | ⟨X2, hQ, hX⟩
      · rcases loc_split hP with ⟨Z1, hPA, hY1⟩ | ⟨X2a, hQv, hXA⟩
        · -- the uppercase character lies in the piece A
          have heqn : A ++ p ++ sepJoin p (B :: t2) =
              X ++ c :: (Z1 ++ (p ++ sepJoin p (B :: t2))) := by
            rw [hPA]
            simp [List.append_assoc]
          rcases hInv _ c _ heqn hup with ⟨X0, d, hX0, hd⟩ | ⟨S, hS, hSc⟩
          · exact Or.inl ⟨X0, d, hX0, hd⟩
          · right
            have hYfull : Y = Z1 ++ (v ++ sepJoin v (B :: t2)) := by
              rw [hY, hY1]
              simp [List.append_assoc]
            by_cases hZ1 : wsFree Z1 = true
            · rcases hvfc with ⟨S2, hS2, hS2c⟩
              refine ⟨S2, hS2, ?_⟩
              rw [hYfull, fwdRun_append_wsFree _ hZ1]
              rcases fwdRun_append_ext v (sepJoin v (B :: t2)) with ⟨e, he⟩
              rw [he]
              show containsSub S2 ((c :: Z1) ++ (fwdRun v ++ e)) = true
              exact containsSub_mono_left _ (containsSub_mono_right _ hS2c)
            · rw [Bool.not_eq_true] at hZ1
              refine ⟨S, hS, ?_⟩
              rw [hYfull, fwdRun_append_stops _ hZ1]
              rw [fwdRun_append_stops _ hZ1] at hSc
              exact hSc
        · -- the uppercase character lies in the inserted copy of v
          rcases hvInv _ c _ hQv hup with ⟨X0, d, hX0, hd⟩ | ⟨S, hS, hSc⟩
          · left
            refine ⟨A ++ X0, d, ?_, hd⟩
            rw [hXA, hX0]
            simp
          · right
            refine ⟨S, hS, ?_⟩
            rw [hY]
            rcases fwdRun_append_ext Y1 (sepJoin v (B :: t2)) with ⟨e, he⟩
            rw [he]
            show containsSub S ((c :: fwdRun Y1) ++ e) = true
            exact containsSub_mono_right _ hSc
      · -- the uppercase character lies in the joined tail
        rcases hr2 _ c _ hQ hup with ⟨X0, d, hX0, hd⟩ | ⟨S, hS, hSc⟩
        · left
          refine ⟨(A ++ v) ++ X0, d, ?_, hd⟩
          rw [hX, hX0]
          simp
        · exact Or.inr ⟨S, hS, hSc⟩

theorem wsFree_lower (x : Str) : wsFree (lowerStr x) = wsFree x := by
  unfold wsFree lowerStr
  rw [List.all_map]
  congr 1
  funext c
  show (!isSpaceB (lowChar c)) = !isSpaceB c
  rw [isSpaceB_lowChar]

theorem nonWs_of_wsFree {x : Str} (h : wsFree x = true) :
    nonWsCount x = x.length := by
  unfold wsFree at h
  rw [List.all_eq_true] at h
  exact List.countP_eq_length.mpr h

/-- Core impossibility: a fired replacement step can never produce a string
whose word sequence matches a bad canonical label ignoring case, given that
the current string is the trimmed non-key input whenever it is still free
of uppercase characters. -/
theorem step_fired_bad {m : Str}
    (hmhead : ∀ c r, m = c :: r → isSpaceB c = false)
    (hmlast : ∀ d, m.getLast? = some d → isSpaceB d = false)
    (hmkey : lookupStr m nameMappingsStd = none)
    {pr : Str × Str} (hpr : pr ∈ nameMappingsStd)
    {n : Str} (hP1 : upFree n = true → n = m)
    (hfired : containsSub pr.1 n = true)
    {V : Str} (hV : V ∈ badValues)
    (hbm : badMatch (replaceAll pr.1 pr.2 n) V) : False := by
  obtain ⟨hpne, hpu, hpsome⟩ := table_pattern_facts hpr
  obtain ⟨hvne, _, hvshape, _, _⟩ := table_value_facts hpr
  rcases replaceAll_decomp pr.2 n.length n (Nat.le_refl _) pr.1 hpne with
    ⟨As, hAne, hs1, hs2, hs3⟩
  have hk2 := hs3 hfired
  unfold badMatch at hbm
  rw [hs2] at hbm
  have hlen1 : ∀ L : List Str, (L.map lowerStr).map List.length =
      L.map List.length := by
    intro L
    rw [List.map_map]
    exact List.map_congr_left (fun x _ => lowerStr_length x)
  have hcnt : nonWsCount (sepJoin pr.2 As) = nonWsCount V := by
    rw [← nonWs_eq_sum_words (sepJoin pr.2 As).length _ (Nat.le_refl _),
      ← nonWs_eq_sum_words V.length V (Nat.le_refl _)]
    rw [← hlen1 (splitWs (sepJoin pr.2 As)), hbm, hlen1]
  have hvsub : containsSub pr.2 (sepJoin pr.2 As) = true :=
    sepJoin_contains_sep _ hk2
  have hKVK : nonWsCount pr.2 = nonWsCount V ∧ 1 ≤ nonWsCount pr.2 := by
    rcases hvshape with hws | htwo
    · -- single-word canonical label
      have hlsub : containsSub (lowerStr pr.2) (lowerStr (sepJoin pr.2 As)) =
          true := containsSub_lower hvsub
      have hlwf : wsFree (lowerStr pr.2) = true := by
        rw [wsFree_lower]
        exact hws
      have hlne : lowerStr pr.2 ≠ [] := fun hx => hvne (lowerStr_eq_nil hx)
      rcases sub_wsFree_in_word (lowerStr (sepJoin pr.2 As)).length _ _
        (Nat.le_refl _) hlsub hlwf hlne with ⟨u2, hu2mem, hu2sub⟩
      rw [splitWs_lower (sepJoin pr.2 As).length _ (Nat.le_refl _)] at hu2mem
      rw [hbm] at hu2mem
      rcases List.mem_map.mp hu2mem with ⟨u, humem, hueq⟩
      rw [← hueq] at hu2sub
      have hfact := List.all_eq_true.mp stdEmbedSingle pr hpr
      rw [Bool.or_eq_true] at hfact
      rcases hfact with hf1 | hf2
      · rw [Bool.not_eq_true'] at hf1
        rw [hf1] at hws
        cases hws
      · have hfu := List.all_eq_true.mp (List.all_eq_true.mp hf2 V hV) u humem
        rw [Bool.or_eq_true] at hfu
        rcases hfu with hnc | hconj
        · rw [Bool.not_eq_true'] at hnc
          rw [hnc] at hu2sub
          cases hu2sub
        · rw [Bool.and_eq_true] at hconj
          have hloweq : lowerStr pr.2 = lowerStr u := of_decide_eq_true hconj.1
          have hVsplit : splitWs V = [u] := of_decide_eq_true hconj.2
          have huV : nonWsCount V = u.length := by
            rw [← nonWs_eq_sum_words V.length V (Nat.le_refl _), hVsplit]
            simp
          have hlenv : pr.2.length = u.length := by
            have := congrArg List.length hloweq
            rw [lowerStr_length, lowerStr_length] at this
            exact this
          have hune : u ≠ [] := splitWs_mem_ne (by rw [hVsplit] at *; simp [hVsplit])
          constructor
          · rw [nonWs_of_wsFree hws, hlenv, huV]
          · rw [nonWs_of_wsFree hws, hlenv]
            cases u with
            | nil => exact absurd rfl hune
            | cons a t => rw [List.length_cons]; omega
    · -- two-word canonical label
      obtain ⟨v2, hv2eq, hv2ws, hv2ne, hv1ne⟩ := twoWordB_spec htwo
      obtain ⟨v1, hv1⟩ : ∃ v1, fwdRun pr.2 = v1 := ⟨_, rfl⟩
      rw [hv1] at hv2eq hv1ne
      have hv1wf : wsFree v1 = true := by
        rw [← hv1]
        exact fwdRun_wsFree pr.2
      have hsplit32 : pr.2 = (v1 ++ [32]) ++ v2 := by
        conv_lhs => rw [hv2eq]
        simp
      have hv1sub : containsSub v1 pr.2 = true :=
        containsSub_parts.mpr ⟨[], 32 :: v2, by rw [List.nil_append]; exact hv2eq⟩
      have hv2sub : containsSub v2 pr.2 = true :=
        containsSub_parts.mpr ⟨v1 ++ [32], [], by
          rw [List.append_nil]
          exact hsplit32⟩
      have hl1 : containsSub (lowerStr v1)
          (lowerStr (sepJoin pr.2 As)) = true :=
        containsSub_lower (containsSub_trans hv1sub hvsub)
      have hl2 : containsSub (lowerStr v2) (lowerStr (sepJoin pr.2 As)) = true :=
        containsSub_lower (containsSub_trans hv2sub hvsub)
      have hwsl : splitWs (lowerStr (sepJoin pr.2 As)) =
          (splitWs V).map lowerStr := by
        rw [splitWs_lower (sepJoin pr.2 As).length _ (Nat.le_refl _), hbm]
      rcases sub_wsFree_in_word (lowerStr (sepJoin pr.2 As)).length _ _
        (Nat.le_refl _) hl1 (by rw [wsFree_lower]; exact hv1wf)
        (fun hx => hv1ne (lowerStr_eq_nil hx)) with ⟨w1, hw1mem, hw1sub⟩
      rcases sub_wsFree_in_word (lowerStr (sepJoin pr.2 As)).length _ _
        (Nat.le_refl _) hl2 (by rw [wsFree_lower]; exact hv2ws)
        (fun hx => hv2ne (lowerStr_eq_nil hx)) with ⟨w2, hw2mem, hw2sub⟩
      rw [hwsl] at hw1mem hw2mem
      rcases List.mem_map.mp hw1mem with ⟨u1, hu1mem, hu1eq⟩
      rcases List.mem_map.mp hw2mem with ⟨u2, hu2mem, hu2eq⟩
      rw [← hu1eq] at hw1sub
      rw [← hu2eq] at hw2sub
      have hdropv2 : pr.2.drop (v1.length + 1) = v2 := by
        conv_lhs => rw [hsplit32]
        have hlen32 : (v1 ++ [32]).length = v1.length + 1 := by
          rw [List.length_append]
          rfl
        rw [← hlen32, List.drop_left]
      have hfact := List.all_eq_true.mp stdEmbedDouble pr hpr
      rw [Bool.or_eq_true] at hfact
      rcases hfact with hf1 | hf2
      · have h2w : twoWordB pr.2 = true := htwo
        unfold twoWordB at h2w
        split at h2w
        · rename_i v2x heqx
          have hdwx : pr.2.dropWhile (fun c => !isSpaceB c) = 32 :: v2x := by
            rw [← drop_fwdRun]
            exact heqx
          have hwsfalse : wsFree pr.2 = false := by
            by_contra hcon
            rw [Bool.not_eq_false] at hcon
            have := dropWhile_all (p := fun c => !isSpaceB c) (u := pr.2)
              (fun c hc => by
                unfold wsFree at hcon
                rw [List.all_eq_true] at hcon
                exact hcon c hc)
            rw [this] at hdwx
            cases hdwx
          rw [hwsfalse] at hf1
          cases hf1
        · cases h2w
      · have hfV := List.all_eq_true.mp hf2 V hV
        rw [Bool.or_eq_true] at hfV
        rcases hfV with hneg | hgood
        · exfalso
          rw [Bool.not_eq_true'] at hneg
          rcases Bool.and_eq_false_iff.mp hneg with h1 | h2
          · rw [List.any_eq_false] at h1
            rw [hv1] at h1
            exact absurd hw1sub (by simpa using h1 u1 hu1mem)
          · rw [List.any_eq_false] at h2
            rw [hv1, hdropv2] at h2
            exact absurd hw2sub (by simpa using h2 u2 hu2mem)
        · constructor
          · exact of_decide_eq_true hgood
          · rw [hv2eq]
            unfold nonWsCount
            rw [List.countP_append]
            have hc1 : v1.countP (fun c => !isSpaceB c) = v1.length :=
              nonWs_of_wsFree hv1wf
            cases v1 with
            | nil => exact absurd rfl hv1ne
            | cons a t =>
              rw [hc1, List.length_cons]
              omega
  -- arithmetic: exactly one copy, whitespace-only pieces
  have hsum := sepJoin_nonWs pr.2 As hAne
  rw [hcnt, ← hKVK.1] at hsum
  have hK1 := hKVK.2
  have ha : As.length - 1 = (As.length - 2) + 1 := by omega
  rw [ha, Nat.add_mul, Nat.one_mul] at hsum
  have hsz : (As.map nonWsCount).sum = 0 ∧ (As.length - 2) * nonWsCount pr.2 = 0 := by
    omega
  have hlen2 : As.length = 2 := by
    rcases Nat.mul_eq_zero.mp hsz.2 with h0 | h0
    · omega
    · omega
  obtain ⟨A0, A1, hAs⟩ : ∃ A0 A1, As = [A0, A1] := by
    cases As with
    | nil => cases hk2
    | cons A0 t =>
      cases t with
      | nil =>
        rw [List.length_cons, List.length_nil] at hlen2
        omega
      | cons A1 t2 =>
        cases t2 with
        | nil => exact ⟨A0, A1, rfl⟩
        | cons A2 t3 =>
          rw [List.length_cons, List.length_cons, List.length_cons] at hlen2
          omega
  subst hAs
  have hsumAB : nonWsCount A0 = 0 ∧ nonWsCount A1 = 0 := by
    have := hsz.1
    rw [List.map_cons, List.map_cons, List.map_nil, List.sum_cons,
      List.sum_cons, List.sum_nil] at this
    omega
  have hA0ws : ∀ c ∈ A0, isSpaceB c = true := by
    intro c hc
    have := List.countP_eq_zero.mp hsumAB.1 c hc
    simpa using this
  have hA1ws : ∀ c ∈ A1, isSpaceB c = true := by
    intro c hc
    have := List.countP_eq_zero.mp hsumAB.2 c hc
    simpa using this
  have hn : n = A0 ++ pr.1 ++ A1 := hs1
  have hnup : upFree n = true := by
    rw [hn, upFree_append, upFree_append, upFree_of_wsOnly hA0ws, hpu,
      upFree_of_wsOnly hA1ws]
    rfl
  have hnm := hP1 hnup
  have hA0nil : A0 = [] := by
    cases hA0 : A0 with
    | nil => rfl
    | cons a0 t0 =>
      exfalso
      have hm0 : m = a0 :: (t0 ++ pr.1 ++ A1) := by
        rw [← hnm, hn, hA0]
        simp
      have := hmhead a0 _ hm0
      rw [hA0ws a0 (by rw [hA0]; exact List.mem_cons_self a0 t0)] at this
      cases this
  have hA1nil : A1 = [] := by
    cases hA1 : A1 with
    | nil => rfl
    | cons a1 t1 =>
      exfalso
      have hlA : (a1 :: t1 : Str) ≠ [] := List.cons_ne_nil a1 t1
      have hm1 : m.getLast? = (a1 :: t1).getLast? := by
        rw [← hnm, hn, hA1]
        exact getLast?_append_right hlA
      have hgl : (a1 :: t1).getLast? = some ((a1 :: t1).getLast hlA) :=
        List.getLast?_eq_getLast _ hlA
      have hws := hmlast _ (by rw [hm1, hgl])
      have hmem : (a1 :: t1).getLast hlA ∈ (a1 :: t1 : Str) :=
        List.getLast_mem hlA
      have := hA1ws _ (by rw [hA1]; exact hmem)
      rw [this] at hws
      cases hws
  have hmp : m = pr.1 := by
    rw [← hnm, hn, hA0nil, hA1nil]
    simp
  rw [hmp] at hmkey
  rw [hmkey] at hpsome
  cases hpsome

